import Mathlib

/-!
# GridMaze: maze generator and movement engine

A shallow embedding of `grid_maze.cpp`.

* `int` values are modelled as `Int`, `size_t` values as `Nat`. The generator and the
  sizes of the grid are taken exactly. The step functions convert the player's `size_t`
  coordinates to a 32-bit `int` (`toInt32`, `narrow`), which changes a coordinate of
  `2^31` or more.
* `std::vector<std::string>` is a `List (List Char)`; an access outside the
  vector (undefined behaviour in the source) is the fault `Fault.outOfRange`.
* The random generator is an arbitrary stream `rng : Nat → Nat`; the `k`-th draw
  of `uniform_int_distribution(0, n - 1)` is `rng k % n`, so every sequence of
  in-range indices arises from some stream.
* The `while` loop of `generateMaze` runs on fuel; `generateMaze` supplies
  `2 * W * H` iterations, which is shown to be enough.
-/

namespace GridMaze

/-! ## Data model -/

/-- Directions the player can face: `enum Direction { NORTH, EAST, SOUTH, WEST }`. -/
inductive Direction where
  | NORTH
  | EAST
  | SOUTH
  | WEST
deriving DecidableEq, Repr

/-- The integer value of an enumerator (`NORTH = 0`, ..., `WEST = 3`). -/
def Direction.code : Direction → Nat
  | .NORTH => 0
  | .EAST => 1
  | .SOUTH => 2
  | .WEST => 3

/-- The cast `static_cast<Direction>(n)` for the values `0..3`. -/
def Direction.cast : Nat → Direction
  | 0 => .NORTH
  | 1 => .EAST
  | 2 => .SOUTH
  | _ => .WEST

/-- Player state: `struct Player { size_t x = 1; size_t y = 1; Direction dir = NORTH; }`. -/
structure Player where
  x : Nat := 1
  y : Nat := 1
  dir : Direction := Direction.NORTH
deriving DecidableEq, Repr

/-- The maze, `std::vector<std::string>`: a list of rows, row `y` holding the cells `(x, y)`. -/
abbrev Grid := List (List Char)

/-- Ways in which an execution of the source leaves defined behaviour, and the
exhaustion of the loop fuel of the model. -/
inductive Fault where
  | outOfRange
  | badLength
  | fuel
deriving DecidableEq, Repr

/-- The read `maze[y][x]` with `int` indices: `none` when the access is outside the vector
(a negative index converts to a huge `size_t`). -/
def cellAt (maze : Grid) (x y : Int) : Option Char :=
  if 0 ≤ x ∧ 0 ≤ y then
    match maze[y.toNat]? with
    | some row => row[x.toNat]?
    | none => none
  else none

/-- The write `maze[y][x] = c` with `int` indices: `none` when the access is outside the vector. -/
def setCell (maze : Grid) (x y : Int) (c : Char) : Option Grid :=
  if 0 ≤ x ∧ 0 ≤ y then
    match maze[y.toNat]? with
    | some row =>
      if x.toNat < row.length then some (maze.set y.toNat (row.set x.toNat c)) else none
    | none => none
  else none

/-! ## Maze generator -/

/-- The lambda `neighbors` of `generateMaze`: the candidates two steps away from `(x, y)`. -/
def neighbors (w h x y : Int) : List (Int × Int) :=
  (if x > 2 then [(x - 2, y)] else []) ++
  (if x < w - 3 then [(x + 2, y)] else []) ++
  (if y > 2 then [(x, y - 2)] else []) ++
  (if y < h - 3 then [(x, y + 2)] else [])

/-- The loop `for (auto& d : dirs) if (maze[d.second][d.first] == '#') unvisited.push_back(d)`. -/
def collectUnvisited (maze : Grid) : List (Int × Int) → Except Fault (List (Int × Int))
  | [] => .ok []
  | d :: ds =>
    match cellAt maze d.1 d.2 with
    | none => .error Fault.outOfRange
    | some c =>
      match collectUnvisited maze ds with
      | .error e => .error e
      | .ok rest => .ok (if c = '#' then d :: rest else rest)

/-- The variables of the carving loop: the maze, the stack (top first) and the number of
random numbers drawn so far. -/
structure DfsState where
  maze : Grid
  stack : List (Int × Int)
  draws : Nat
deriving DecidableEq, Repr

/-- One iteration of the `while (!stack.empty())` loop, entered with `(x, y)` on top of
the stack `(x, y) :: rest`. -/
def carveStep (w h : Int) (rng : Nat → Nat) (s : DfsState) (x y : Int)
    (rest : List (Int × Int)) : Except Fault DfsState :=
  match collectUnvisited s.maze (neighbors w h x y) with
  | .error e => .error e
  | .ok unvisited =>
    if unvisited.isEmpty then
      .ok { s with stack := rest }
    else
      match unvisited[rng s.draws % unvisited.length]? with
      | none => .error Fault.outOfRange
      | some (nx, ny) =>
        match setCell s.maze ((x + nx).tdiv 2) ((y + ny).tdiv 2) ' ' with
        | none => .error Fault.outOfRange
        | some m1 =>
          match setCell m1 nx ny ' ' with
          | none => .error Fault.outOfRange
          | some m2 =>
            .ok { maze := m2, stack := (nx, ny) :: (x, y) :: rest, draws := s.draws + 1 }

/-- The DFS carving loop `while (!stack.empty()) { ... }`, at most `fuel` iterations. -/
def carveLoop (w h : Int) (rng : Nat → Nat) : Nat → DfsState → Except Fault DfsState
  | 0, _ => .error Fault.fuel
  | fuel + 1, s =>
    match s.stack with
    | [] => .ok s
    | (x, y) :: rest =>
      match carveStep w h rng s x y rest with
      | .error e => .error e
      | .ok s1 => carveLoop w h rng fuel s1

/-- The normalisation `if (w % 2 == 0) w++;`. -/
def normalize (w : Int) : Int :=
  if w.tmod 2 = 0 then w + 1 else w

/-- The function `generateMaze(w, h)`, with the random stream made explicit. A negative
size makes the vector constructor throw (`Fault.badLength`). -/
def generateMaze (w h : Int) (rng : Nat → Nat) : Except Fault Grid :=
  let w := normalize w
  let h := normalize h
  if w < 0 ∨ h < 0 then .error Fault.badLength
  else
    let maze : Grid := List.replicate h.toNat (List.replicate w.toNat '#')
    match setCell maze 1 1 ' ' with
    | none => .error Fault.outOfRange
    | some m0 =>
      match carveLoop w h rng (2 * w.toNat * h.toNat) { maze := m0, stack := [(1, 1)], draws := 0 } with
      | .error e => .error e
      | .ok s => .ok s.maze

/-- The number of rows, `maze.size()`. -/
def height (maze : Grid) : Nat := maze.length

/-- The length of the first row, `maze[0].size()` (`0` on the empty maze, where the source
never evaluates it). -/
def width (maze : Grid) : Nat :=
  match maze with
  | [] => 0
  | row :: _ => row.length

/-- The exit hole of `main`: `maze[maze.size() - 2][maze[0].size() - 1] = ' '`. -/
def carveExit (maze : Grid) : Except Fault Grid :=
  match maze with
  | [] => .error Fault.outOfRange
  | _ :: _ =>
    match setCell maze ((width maze : Int) - 1) ((height maze : Int) - 2) ' ' with
    | none => .error Fault.outOfRange
    | some m => .ok m

/-- The grid of a level as `main` builds it: `generateMaze(w, h)` followed by the exit
hole (`main` calls it with `w = h = 21`). -/
def levelGrid (w h : Int) (rng : Nat → Nat) : Except Fault Grid :=
  match generateMaze w h rng with
  | .error e => .error e
  | .ok maze => carveExit maze

/-! ## Movement -/

/-- The function `directionName`. -/
def directionName : Direction → String
  | .NORTH => "north"
  | .SOUTH => "south"
  | .EAST => "east"
  | .WEST => "west"

/-- The function `turnLeft`: the new player and the message. -/
def turnLeft (p : Player) : Player × String :=
  let p1 : Player := { p with dir := Direction.cast ((p.dir.code + 3) % 4) }
  (p1, "You turn left. Now facing " ++ directionName p1.dir ++ ".")

/-- The function `turnRight`: the new player and the message. -/
def turnRight (p : Player) : Player × String :=
  let p1 : Player := { p with dir := Direction.cast ((p.dir.code + 1) % 4) }
  (p1, "You turn right. Now facing " ++ directionName p1.dir ++ ".")

/-- The conversion of a `size_t` value to a 32-bit `int`: the value modulo `2^32`, read as a
signed number (`2^31 = 2147483648`, `2^32 = 4294967296`). -/
def toInt32 (n : Nat) : Int :=
  (((n + 2147483648) % 4294967296 : Nat) : Int) - 2147483648

/-- The narrowing `int nx = p.x` of the step functions. On a maze whose sides fit an `int`
it is `toInt32`. A maze with a side of `2^31` or more cannot be indexed by the `int`s of the
source at all; there the coordinate is kept exact, as the sizes are. -/
def narrow (maze : Grid) (n : Nat) : Int :=
  if width maze < 2147483648 ∧ height maze < 2147483648 then toInt32 n else (n : Int)

/-- The destination `(nx, ny)` computed at the start of `moveForward`: the narrowed
coordinates `int nx = p.x; int ny = p.y`, stepped by the direction. The step is taken exactly;
at `INT_MAX`, where `nx++` overflows in the source, the bounds check fires either way. -/
def forwardTarget (maze : Grid) (p : Player) : Int × Int :=
  let nx : Int := narrow maze p.x
  let ny : Int := narrow maze p.y
  let ny := if p.dir = Direction.NORTH then ny - 1 else ny
  let ny := if p.dir = Direction.SOUTH then ny + 1 else ny
  let nx := if p.dir = Direction.EAST then nx + 1 else nx
  let nx := if p.dir = Direction.WEST then nx - 1 else nx
  (nx, ny)

/-- The destination `(nx, ny)` computed at the start of `moveBackward`: the narrowed
coordinates `int nx = p.x; int ny = p.y`, stepped against the direction. -/
def backwardTarget (maze : Grid) (p : Player) : Int × Int :=
  let nx : Int := narrow maze p.x
  let ny : Int := narrow maze p.y
  let ny := if p.dir = Direction.NORTH then ny + 1 else ny
  let ny := if p.dir = Direction.SOUTH then ny - 1 else ny
  let nx := if p.dir = Direction.EAST then nx - 1 else nx
  let nx := if p.dir = Direction.WEST then nx + 1 else nx
  (nx, ny)

/-- The bounds check `nx < 0 || ny < 0 || ny >= (int)maze.size() || nx >= (int)maze[0].size()`. -/
def outsideGrid (maze : Grid) (nx ny : Int) : Prop :=
  nx < 0 ∨ ny < 0 ∨ ny ≥ (height maze : Int) ∨ nx ≥ (width maze : Int)

instance (maze : Grid) (nx ny : Int) : Decidable (outsideGrid maze nx ny) := by
  unfold outsideGrid; infer_instance

/-- The function `moveForward`: the new player and the message. -/
def moveForward (maze : Grid) (p : Player) : Except Fault (Player × String) :=
  let (nx, ny) := forwardTarget maze p
  if outsideGrid maze nx ny then
    .ok (p, "You bump into the boundary. Still facing " ++ directionName p.dir ++ ".")
  else
    match cellAt maze nx ny with
    | none => .error Fault.outOfRange
    | some c =>
      if c = ' ' then
        .ok ({ p with x := nx.toNat, y := ny.toNat },
          "You move forward. Facing " ++ directionName p.dir ++ ".")
      else
        .ok (p, "You bump into a wall. Still facing " ++ directionName p.dir ++ ".")

/-- The function `moveBackward`: the new player and the message. -/
def moveBackward (maze : Grid) (p : Player) : Except Fault (Player × String) :=
  let (nx, ny) := backwardTarget maze p
  if outsideGrid maze nx ny then
    .ok (p, "You back into the boundary. Still facing " ++ directionName p.dir ++ ".")
  else
    match cellAt maze nx ny with
    | none => .error Fault.outOfRange
    | some c =>
      if c = ' ' then
        .ok ({ p with x := nx.toNat, y := ny.toNat },
          "You step backward. Facing " ++ directionName p.dir ++ ".")
      else
        .ok (p, "You step back into a wall. Still facing " ++ directionName p.dir ++ ".")

/-- The commands of the inner game loop of `main` (quitting apart). -/
inductive Command where
  | turnLeft
  | turnRight
  | moveForward
  | moveBackward
  | unknown
deriving DecidableEq, Repr

/-- The dispatch on the input character in `main`: `a`/`d`/`w`/`s` in either case, anything
else being an unknown command. -/
def readCommand (input : Char) : Command :=
  if input = 'a' ∨ input = 'A' then Command.turnLeft
  else if input = 'd' ∨ input = 'D' then Command.turnRight
  else if input = 'w' ∨ input = 'W' then Command.moveForward
  else if input = 's' ∨ input = 'S' then Command.moveBackward
  else Command.unknown

/-- The effect of one command on the player and the message, as dispatched in `main`. -/
def applyCommand (maze : Grid) (p : Player) : Command → Except Fault (Player × String)
  | .turnLeft => .ok (turnLeft p)
  | .turnRight => .ok (turnRight p)
  | .moveForward => moveForward maze p
  | .moveBackward => moveBackward maze p
  | .unknown => .ok (p, "Unknown command.")

/-- The player and message after a sequence of commands, applied one after the other. -/
def runCommands (maze : Grid) (p : Player) (message : String) :
    List Command → Except Fault (Player × String)
  | [] => .ok (p, message)
  | c :: cs =>
    match applyCommand maze p c with
    | .error e => .error e
    | .ok (p1, m1) => runCommands maze p1 m1 cs

/-- The win condition of `main`:
`player.x == maze[0].size() - 1 && player.y == maze.size() - 2`. -/
def won (maze : Grid) (p : Player) : Prop :=
  (p.x : Int) = (width maze : Int) - 1 ∧ (p.y : Int) = (height maze : Int) - 2

instance (maze : Grid) (p : Player) : Decidable (won maze p) := by
  unfold won; infer_instance

/-- The inner game loop of `main` run on a list of commands: each command is applied, and
the loop ends right after the first command that makes the win condition true. The result is
the player and the message after each command that was executed. -/
def playLevel (maze : Grid) (p : Player) :
    List Command → Except Fault (List (Player × String))
  | [] => .ok []
  | c :: cs =>
    match applyCommand maze p c with
    | .error e => .error e
    | .ok (p1, m1) =>
      if won maze p1 then .ok [(p1, m1)]
      else
        match playLevel maze p1 cs with
        | .error e => .error e
        | .ok trace => .ok ((p1, m1) :: trace)

/-! ## Specification vocabulary -/

/-- The cell `(x, y)` of the maze is a passage, `' '`. -/
def isPassage (maze : Grid) (x y : Int) : Prop := cellAt maze x y = some ' '

/-- The cell `(x, y)` of the maze is a wall, `'#'`. -/
def isWall (maze : Grid) (x y : Int) : Prop := cellAt maze x y = some '#'

instance (maze : Grid) (x y : Int) : Decidable (isPassage maze x y) := by
  unfold isPassage; infer_instance

instance (maze : Grid) (x y : Int) : Decidable (isWall maze x y) := by
  unfold isWall; infer_instance

/-- Two cells are 4-neighbours: they differ by one in exactly one coordinate. -/
def adjacent (a b : Int × Int) : Prop :=
  (a.1 = b.1 ∧ (a.2 = b.2 + 1 ∨ b.2 = a.2 + 1)) ∨
  (a.2 = b.2 ∧ (a.1 = b.1 + 1 ∨ b.1 = a.1 + 1))

instance (a b : Int × Int) : Decidable (adjacent a b) := by
  unfold adjacent; infer_instance

/-- The cell `b` is reachable from `a` through a path of 4-adjacent passage cells
(both ends included). -/
inductive Reachable (maze : Grid) : Int × Int → Int × Int → Prop where
  | refl (a : Int × Int) : isPassage maze a.1 a.2 → Reachable maze a a
  | step {a b c : Int × Int} :
      Reachable maze a b → adjacent b c → isPassage maze c.1 c.2 → Reachable maze a c

/-- The maze has `H` rows of `W` cells each. -/
def Rectangular (maze : Grid) (W H : Nat) : Prop :=
  maze.length = H ∧ ∀ row ∈ maze, row.length = W

/-- Every cell of the maze is a wall `'#'` or a passage `' '`. -/
def WallOrPassage (maze : Grid) : Prop :=
  ∀ row ∈ maze, ∀ c ∈ row, c = '#' ∨ c = ' '

/-- The cell `(x, y)` is on the odd lattice inside the border of a `w × h` maze. -/
def latticeCell (w h x y : Int) : Prop :=
  x % 2 = 1 ∧ y % 2 = 1 ∧ 1 ≤ x ∧ x ≤ w - 2 ∧ 1 ≤ y ∧ y ≤ h - 2

/-- The cell `(x, y)` is on the outer border of a `W × H` maze. -/
def borderCell (W H x y : Int) : Prop :=
  0 ≤ x ∧ x < W ∧ 0 ≤ y ∧ y < H ∧ (x = 0 ∨ x = W - 1 ∨ y = 0 ∨ y = H - 1)

/-- The forward vectors of the four directions: NORTH `(0, -1)`, EAST `(+1, 0)`,
SOUTH `(0, +1)`, WEST `(-1, 0)`. -/
def forwardVector : Direction → Int × Int
  | .NORTH => (0, -1)
  | .EAST => (1, 0)
  | .SOUTH => (0, 1)
  | .WEST => (-1, 0)

/-- The cell one step from the player along `sign` times the forward vector of its
direction (`sign = 1` forward, `sign = -1` backward). -/
def stepTarget (p : Player) (sign : Int) : Int × Int :=
  ((p.x : Int) + sign * (forwardVector p.dir).1, (p.y : Int) + sign * (forwardVector p.dir).2)

/-- The cell `c` lies in `[0, W) × [0, H)`. -/
def insideGrid (maze : Grid) (c : Int × Int) : Prop :=
  0 ≤ c.1 ∧ c.1 < (width maze : Int) ∧ 0 ≤ c.2 ∧ c.2 < (height maze : Int)

instance (maze : Grid) (c : Int × Int) : Decidable (insideGrid maze c) := by
  unfold insideGrid; infer_instance

/-- The message is one of the four bump messages (bump into a wall, bump into the boundary,
step back into a wall, back into the boundary), for some direction. -/
def isBumpMessage (msg : String) : Prop :=
  ∃ d : Direction,
    msg = "You bump into a wall. Still facing " ++ directionName d ++ "." ∨
    msg = "You bump into the boundary. Still facing " ++ directionName d ++ "." ∨
    msg = "You step back into a wall. Still facing " ++ directionName d ++ "." ∨
    msg = "You back into the boundary. Still facing " ++ directionName d ++ "."

/-- The Player invariant: the player stands inside the grid, on a passage cell. -/
def playerOK (maze : Grid) (p : Player) : Prop :=
  p.x < width maze ∧ p.y < height maze ∧ isPassage maze p.x p.y

instance (maze : Grid) (p : Player) : Decidable (playerOK maze p) := by
  unfold playerOK; infer_instance

/-- A small rectangular grid with a two-cell corridor, used to instantiate the movement
theorems. -/
def exampleGrid : Grid :=
  [['#', '#', '#', '#'],
   ['#', ' ', ' ', '#'],
   ['#', '#', '#', '#']]

/-- The number of wall cells of the maze. -/
def wallCount (maze : Grid) : Nat :=
  (maze.map (fun row => row.count '#')).sum

/-- The invariant of the carving loop of `generateMaze` on a `w × h` maze. -/
structure CarveInv (w h : Int) (s : DfsState) : Prop where
  rect : Rectangular s.maze w.toNat h.toNat
  chars : WallOrPassage s.maze
  start : isPassage s.maze 1 1
  stack_ok : ∀ a ∈ s.stack, latticeCell w h a.1 a.2 ∧ isPassage s.maze a.1 a.2
  interior : ∀ x y, isPassage s.maze x y → 1 ≤ x ∧ x ≤ w - 2 ∧ 1 ≤ y ∧ y ≤ h - 2
  reach : ∀ x y, isPassage s.maze x y → Reachable s.maze (1, 1) (x, y)
  finished : ∀ x y, latticeCell w h x y → isPassage s.maze x y →
    (x, y) ∈ s.stack ∨ ∀ n ∈ neighbors w h x y, isPassage s.maze n.1 n.2

/-- The cell `(x, y)` lies inside the border of a `w × h` maze. -/
def interiorCell (w h x y : Int) : Prop :=
  1 ≤ x ∧ x ≤ w - 2 ∧ 1 ≤ y ∧ y ≤ h - 2

/-- The states at the head of the carving loop of `generateMaze` on a `w × h` maze (`w`, `h`
normalised): the state after the start cell is carved, and the state after each iteration
entered with a non-empty stack. -/
inductive LoopState (w h : Int) (rng : Nat → Nat) : DfsState → Prop where
  | init {m0 : Grid} :
      setCell (List.replicate h.toNat (List.replicate w.toNat '#')) 1 1 ' ' = some m0 →
      LoopState w h rng { maze := m0, stack := [(1, 1)], draws := 0 }
  | next {s s1 : DfsState} {x y : Int} {rest : List (Int × Int)} :
      LoopState w h rng s → s.stack = (x, y) :: rest →
      carveStep w h rng s x y rest = .ok s1 → LoopState w h rng s1

/-- The number of cells of the odd lattice of a `w × h` maze, `((w - 1) / 2) * ((h - 1) / 2)`. -/
def latticeSize (w h : Int) : Nat :=
  ((w - 1) / 2).toNat * ((h - 1) / 2).toNat

/-- The cells `(2 i + 1, 2 j + 1)` of the odd lattice of a `w × h` maze that are walls, as
index pairs `(i, j)`. -/
def latticeWalls (maze : Grid) (w h : Int) : Finset (Nat × Nat) :=
  ((Finset.range ((w - 1) / 2).toNat) ×ˢ (Finset.range ((h - 1) / 2).toNat)).filter
    (fun ij => cellAt maze (2 * (ij.1 : Int) + 1) (2 * (ij.2 : Int) + 1) = some '#')

/-- The message is one of the two boundary messages (bump into the boundary, back into the
boundary), for some direction. -/
def isBoundaryMessage (msg : String) : Prop :=
  ∃ d : Direction,
    msg = "You bump into the boundary. Still facing " ++ directionName d ++ "." ∨
    msg = "You back into the boundary. Still facing " ++ directionName d ++ "."

/-- The number of passage cells of the maze. -/
def passageCount (maze : Grid) : Nat :=
  (maze.map (fun row => row.count ' ')).sum

/-- The passage graph of the maze: its vertices are the cells, and two cells are joined when
both are passages and they are 4-neighbours (a wall cell is an isolated vertex). -/
def passageGraph (maze : Grid) : SimpleGraph (Int × Int) where
  Adj a b := isPassage maze a.1 a.2 ∧ isPassage maze b.1 b.2 ∧ adjacent a b
  symm := by
    intro a b hab
    refine ⟨hab.2.1, hab.1, ?_⟩
    have := hab.2.2
    unfold adjacent at this ⊢
    omega
  loopless := by
    intro a haa
    have := haa.2.2
    unfold adjacent at this
    omega

/-- The passage cells of the maze, as a set of cells. -/
def passageCells (maze : Grid) : Set (Int × Int) :=
  {c | isPassage maze c.1 c.2}

/-- The shape of the carved cells, kept by the carving loop of `generateMaze` on a `w × h`
maze: a passage off the odd lattice has exactly one even coordinate and lies between two
passages of the lattice; the passages are one fewer than twice the carved lattice cells; and
the passage graph has no cycle. -/
structure TreeInv (w h : Int) (s : DfsState) : Prop where
  mids : ∀ x y, isPassage s.maze x y →
    (x % 2 = 1 ∧ y % 2 = 1) ∨
    (x % 2 = 0 ∧ y % 2 = 1 ∧ isPassage s.maze (x - 1) y ∧ isPassage s.maze (x + 1) y) ∨
    (x % 2 = 1 ∧ y % 2 = 0 ∧ isPassage s.maze x (y - 1) ∧ isPassage s.maze x (y + 1))
  count : passageCount s.maze + 2 * (latticeWalls s.maze w h).card + 1 = 2 * latticeSize w h
  acyclic : (passageGraph s.maze).IsAcyclic

/-! ## Grid lemmas -/

theorem cellAt_eq_some_iff (maze : Grid) (x y : Int) (c : Char) :
    cellAt maze x y = some c ↔
      0 ≤ x ∧ 0 ≤ y ∧ ∃ row, maze[y.toNat]? = some row ∧ row[x.toNat]? = some c := by
  unfold cellAt
  split
  · rename_i hxy
    cases hrow : maze[y.toNat]? with
    | none => simp
    | some row => simp [hxy.1, hxy.2]
  · rename_i hxy
    constructor
    · intro h; cases h
    · rintro ⟨h1, h2, -⟩; exact absurd ⟨h1, h2⟩ hxy

theorem setCell_eq_some_iff (maze : Grid) (x y : Int) (c : Char) (m : Grid) :
    setCell maze x y c = some m ↔
      0 ≤ x ∧ 0 ≤ y ∧ ∃ row, maze[y.toNat]? = some row ∧ x.toNat < row.length ∧
        m = maze.set y.toNat (row.set x.toNat c) := by
  unfold setCell
  split
  · rename_i hxy
    cases hrow : maze[y.toNat]? with
    | none => simp
    | some row =>
      by_cases hx : x.toNat < row.length
      · show (if x.toNat < row.length then some (List.set maze y.toNat (row.set x.toNat c)) else none) = some m ↔ _
        rw [if_pos hx]
        constructor
        · intro h
          exact ⟨hxy.1, hxy.2, row, rfl, hx, (Option.some.inj h).symm⟩
        · rintro ⟨-, -, row1, h1, -, h3⟩
          cases h1
          rw [h3]
      · show (if x.toNat < row.length then some (List.set maze y.toNat (row.set x.toNat c)) else none) = some m ↔ _
        rw [if_neg hx]
        constructor
        · intro h; cases h
        · rintro ⟨-, -, row1, h1, h2, -⟩
          cases h1
          exact absurd h2 hx
  · rename_i hxy
    constructor
    · intro h; cases h
    · rintro ⟨h1, h2, -⟩; exact absurd ⟨h1, h2⟩ hxy

theorem cellAt_setCell {maze m : Grid} {x y : Int} {c : Char} (hset : setCell maze x y c = some m)
    (x1 y1 : Int) :
    cellAt m x1 y1 = if x1 = x ∧ y1 = y then some c else cellAt maze x1 y1 := by
  obtain ⟨hx, hy, row, hrow, hlen, rfl⟩ := (setCell_eq_some_iff _ _ _ _ _).1 hset
  have hylt : y.toNat < maze.length := by
    rcases List.getElem?_eq_some_iff.1 hrow with ⟨h, -⟩; exact h
  by_cases hxy1 : 0 ≤ x1 ∧ 0 ≤ y1
  · by_cases hyy : y1 = y
    · subst hyy
      by_cases hxx : x1 = x
      · subst hxx
        simp [cellAt, hx, hy, List.getElem?_set, hylt, hlen]
      · have : x.toNat ≠ x1.toNat := by omega
        simp [cellAt, hxy1.1, hy, List.getElem?_set, hylt, hxx, hrow, this]
    · have : y.toNat ≠ y1.toNat := by omega
      simp [cellAt, hxy1.1, hxy1.2, List.getElem?_set, hyy, this]
  · have hne : ¬ (x1 = x ∧ y1 = y) := by
      rintro ⟨rfl, rfl⟩; exact hxy1 ⟨hx, hy⟩
    simp [cellAt, hxy1, hne]

theorem setCell_isSome_of_cellAt {maze : Grid} {x y : Int} {d : Char} (c : Char)
    (h : cellAt maze x y = some d) : ∃ m, setCell maze x y c = some m := by
  obtain ⟨hx, hy, row, hrow, hcell⟩ := (cellAt_eq_some_iff _ _ _ _).1 h
  have hlen : x.toNat < row.length := by
    rcases List.getElem?_eq_some_iff.1 hcell with ⟨h, -⟩; exact h
  exact ⟨_, (setCell_eq_some_iff _ _ _ _ _).2 ⟨hx, hy, row, hrow, hlen, rfl⟩⟩

theorem cellAt_isSome_iff {maze : Grid} {W H : Nat} (hr : Rectangular maze W H) (x y : Int) :
    (∃ c, cellAt maze x y = some c) ↔ 0 ≤ x ∧ x < W ∧ 0 ≤ y ∧ y < H := by
  obtain ⟨hlen, hrows⟩ := hr
  constructor
  · rintro ⟨c, hc⟩
    obtain ⟨hx, hy, row, hrow, hcell⟩ := (cellAt_eq_some_iff _ _ _ _).1 hc
    obtain ⟨hy1, hrow1⟩ := List.getElem?_eq_some_iff.1 hrow
    obtain ⟨hx1, -⟩ := List.getElem?_eq_some_iff.1 hcell
    have hmem : row ∈ maze := by rw [← hrow1]; exact List.getElem_mem _
    have := hrows row hmem
    omega
  · rintro ⟨hx, hxW, hy, hyH⟩
    have hy1 : y.toNat < maze.length := by omega
    have hmem : maze[y.toNat] ∈ maze := List.getElem_mem _
    have hx1 : x.toNat < (maze[y.toNat]).length := by
      have := hrows _ hmem
      omega
    refine ⟨(maze[y.toNat])[x.toNat], (cellAt_eq_some_iff _ _ _ _).2 ⟨hx, hy, maze[y.toNat], ?_, ?_⟩⟩
    · exact List.getElem?_eq_getElem hy1
    · exact List.getElem?_eq_getElem hx1

theorem cellAt_wallOrPassage {maze : Grid} (hc : WallOrPassage maze) {x y : Int} {c : Char}
    (h : cellAt maze x y = some c) : c = '#' ∨ c = ' ' := by
  obtain ⟨-, -, row, hrow, hcell⟩ := (cellAt_eq_some_iff _ _ _ _).1 h
  obtain ⟨hy1, hrow1⟩ := List.getElem?_eq_some_iff.1 hrow
  obtain ⟨hx1, hcell1⟩ := List.getElem?_eq_some_iff.1 hcell
  have hmem : row ∈ maze := by rw [← hrow1]; exact List.getElem_mem _
  have hmem2 : c ∈ row := by rw [← hcell1]; exact List.getElem_mem _
  exact hc row hmem c hmem2

theorem setCell_rectangular {maze m : Grid} {x y : Int} {c : Char} {W H : Nat}
    (hset : setCell maze x y c = some m) (hr : Rectangular maze W H) : Rectangular m W H := by
  obtain ⟨-, -, row, hrow, -, rfl⟩ := (setCell_eq_some_iff _ _ _ _ _).1 hset
  obtain ⟨hy1, hrow1⟩ := List.getElem?_eq_some_iff.1 hrow
  have hmem : row ∈ maze := by rw [← hrow1]; exact List.getElem_mem _
  refine ⟨by simpa using hr.1, ?_⟩
  intro r hr1
  rcases List.mem_or_eq_of_mem_set hr1 with h | h
  · exact hr.2 r h
  · rw [h, List.length_set]; exact hr.2 row hmem

theorem setCell_wallOrPassage {maze m : Grid} {x y : Int}
    (hset : setCell maze x y ' ' = some m) (hc : WallOrPassage maze) : WallOrPassage m := by
  obtain ⟨-, -, row, hrow, -, rfl⟩ := (setCell_eq_some_iff _ _ _ _ _).1 hset
  obtain ⟨hy1, hrow1⟩ := List.getElem?_eq_some_iff.1 hrow
  have hmem : row ∈ maze := by rw [← hrow1]; exact List.getElem_mem _
  intro r hr1 ch hch
  rcases List.mem_or_eq_of_mem_set hr1 with h | h
  · exact hc r h ch hch
  · rw [h] at hch
    rcases List.mem_or_eq_of_mem_set hch with h2 | h2
    · exact hc row hmem ch h2
    · exact Or.inr h2

theorem setCell_total {maze : Grid} {W H : Nat} (hr : Rectangular maze W H) {x y : Int} (c : Char)
    (hx : 0 ≤ x) (hxW : x < W) (hy : 0 ≤ y) (hyH : y < H) : ∃ m, setCell maze x y c = some m := by
  obtain ⟨d, hd⟩ := (cellAt_isSome_iff hr x y).2 ⟨hx, hxW, hy, hyH⟩
  exact setCell_isSome_of_cellAt c hd

theorem isPassage_setCell {maze m : Grid} {x y : Int} (hset : setCell maze x y ' ' = some m)
    (x1 y1 : Int) : isPassage m x1 y1 ↔ (x1 = x ∧ y1 = y) ∨ isPassage maze x1 y1 := by
  unfold isPassage
  rw [cellAt_setCell hset]
  by_cases h : x1 = x ∧ y1 = y
  · simp [h]
  · simp [h]

/-! ## Reachability -/

theorem Reachable.mono {m1 m2 : Grid} (hm : ∀ x y, isPassage m1 x y → isPassage m2 x y)
    {a b : Int × Int} (h : Reachable m1 a b) : Reachable m2 a b := by
  induction h with
  | refl ha => exact Reachable.refl _ (hm _ _ ha)
  | step _ hadj hc ih => exact Reachable.step ih hadj (hm _ _ hc)

theorem Reachable.source {maze : Grid} {a b : Int × Int} (h : Reachable maze a b) :
    isPassage maze a.1 a.2 := by
  induction h with
  | refl ha => exact ha
  | step _ _ _ ih => exact ih

theorem Reachable.target {maze : Grid} {a b : Int × Int} (h : Reachable maze a b) :
    isPassage maze b.1 b.2 := by
  cases h with
  | refl ha => exact ha
  | step _ _ hc => exact hc

theorem adjacent_symm {a b : Int × Int} (h : adjacent a b) : adjacent b a := by
  unfold adjacent at *
  omega

theorem Reachable.trans {maze : Grid} {a b c : Int × Int} (h1 : Reachable maze a b)
    (h2 : Reachable maze b c) : Reachable maze a c := by
  induction h2 with
  | refl _ => exact h1
  | step _ hadj hc ih => exact Reachable.step ih hadj hc

theorem Reachable.symm {maze : Grid} {a b : Int × Int} (h : Reachable maze a b) :
    Reachable maze b a := by
  induction h with
  | refl ha => exact Reachable.refl _ ha
  | step hab hadj hc ih =>
    exact Reachable.trans
      (Reachable.step (Reachable.refl _ hc) (adjacent_symm hadj) hab.target) ih

/-! ## The carving step -/

theorem mem_neighbors (w h x y a b : Int) :
    (a, b) ∈ neighbors w h x y ↔
      (x > 2 ∧ a = x - 2 ∧ b = y) ∨ (x < w - 3 ∧ a = x + 2 ∧ b = y) ∨
      (y > 2 ∧ a = x ∧ b = y - 2) ∨ (y < h - 3 ∧ a = x ∧ b = y + 2) := by
  unfold neighbors
  simp only [List.mem_append]
  by_cases h1 : x > 2 <;> by_cases h2 : x < w - 3 <;> by_cases h3 : y > 2 <;>
    by_cases h4 : y < h - 3 <;> simp [h1, h2, h3, h4, or_assoc]

theorem collectUnvisited_ok {maze : Grid} {ds us : List (Int × Int)}
    (h : collectUnvisited maze ds = .ok us) :
    (∀ d ∈ ds, ∃ c, cellAt maze d.1 d.2 = some c) ∧
      ∀ d, d ∈ us ↔ d ∈ ds ∧ cellAt maze d.1 d.2 = some '#' := by
  induction ds generalizing us with
  | nil =>
    simp only [collectUnvisited] at h
    cases h
    simp
  | cons d ds ih =>
    simp only [collectUnvisited] at h
    cases hc : cellAt maze d.1 d.2 with
    | none => rw [hc] at h; cases h
    | some c =>
      rw [hc] at h
      cases hr : collectUnvisited maze ds with
      | error e => rw [hr] at h; cases h
      | ok rest =>
        rw [hr] at h
        obtain ⟨ih1, ih2⟩ := ih hr
        injection h with h
        subst h
        refine ⟨?_, ?_⟩
        · intro d1 hd1
          rcases List.mem_cons.1 hd1 with rfl | hd1
          · exact ⟨c, hc⟩
          · exact ih1 d1 hd1
        · intro d1
          by_cases hcw : c = '#'
          · subst hcw
            simp only [if_true, List.mem_cons, ih2]
            constructor
            · rintro (rfl | ⟨h1, h2⟩)
              · exact ⟨Or.inl rfl, hc⟩
              · exact ⟨Or.inr h1, h2⟩
            · rintro ⟨rfl | h1, h2⟩
              · exact Or.inl rfl
              · exact Or.inr ⟨h1, h2⟩
          · simp only [if_neg hcw, List.mem_cons, ih2]
            constructor
            · rintro ⟨h1, h2⟩
              exact ⟨Or.inr h1, h2⟩
            · rintro ⟨rfl | h1, h2⟩
              · rw [hc] at h2
                exact absurd (Option.some.inj h2) hcw
              · exact ⟨h1, h2⟩

theorem collectUnvisited_total {maze : Grid} {ds : List (Int × Int)}
    (h : ∀ d ∈ ds, ∃ c, cellAt maze d.1 d.2 = some c) :
    ∃ us, collectUnvisited maze ds = .ok us := by
  induction ds with
  | nil => exact ⟨[], rfl⟩
  | cons d ds ih =>
    obtain ⟨c, hc⟩ := h d (List.mem_cons_self _ _)
    obtain ⟨rest, hrest⟩ := ih (fun d1 hd1 => h d1 (List.mem_cons_of_mem _ hd1))
    exact ⟨if c = '#' then d :: rest else rest, by simp only [collectUnvisited, hc, hrest]⟩

/-- The two ways an iteration of the carving loop can end: the top of the stack has no
wall neighbour and is popped, or a wall neighbour is chosen, the midpoint and the neighbour
are carved, and the neighbour is pushed. -/
theorem carveStep_cases {w h : Int} {rng : Nat → Nat} {s s1 : DfsState} {x y : Int}
    {rest : List (Int × Int)} (hstep : carveStep w h rng s x y rest = .ok s1) :
    (s1 = { s with stack := rest } ∧
      ∀ n ∈ neighbors w h x y, ∃ c, cellAt s.maze n.1 n.2 = some c ∧ c ≠ '#') ∨
    (∃ nx ny m1, (nx, ny) ∈ neighbors w h x y ∧ cellAt s.maze nx ny = some '#' ∧
      setCell s.maze ((x + nx).tdiv 2) ((y + ny).tdiv 2) ' ' = some m1 ∧
      setCell m1 nx ny ' ' = some s1.maze ∧
      s1.stack = (nx, ny) :: (x, y) :: rest ∧ s1.draws = s.draws + 1) := by
  unfold carveStep at hstep
  cases hcu : collectUnvisited s.maze (neighbors w h x y) with
  | error e => rw [hcu] at hstep; cases hstep
  | ok us =>
    rw [hcu] at hstep
    obtain ⟨hall, hmem⟩ := collectUnvisited_ok hcu
    simp only at hstep
    by_cases hemp : us.isEmpty = true
    · rw [if_pos hemp] at hstep
      left
      injection hstep with hstep
      refine ⟨hstep.symm, ?_⟩
      intro n hn
      obtain ⟨c, hc⟩ := hall n hn
      refine ⟨c, hc, ?_⟩
      rintro rfl
      have : n ∈ us := (hmem n).2 ⟨hn, hc⟩
      rw [List.isEmpty_iff] at hemp
      rw [hemp] at this
      cases this
    · rw [if_neg hemp] at hstep
      right
      cases hpick : us[rng s.draws % us.length]? with
      | none => rw [hpick] at hstep; cases hstep
      | some n =>
        obtain ⟨nx, ny⟩ := n
        rw [hpick] at hstep
        simp only at hstep
        cases hm1 : setCell s.maze ((x + nx).tdiv 2) ((y + ny).tdiv 2) ' ' with
        | none => rw [hm1] at hstep; cases hstep
        | some m1 =>
          rw [hm1] at hstep
          simp only at hstep
          cases hm2 : setCell m1 nx ny ' ' with
          | none => rw [hm2] at hstep; cases hstep
          | some m2 =>
            rw [hm2] at hstep
            injection hstep with hstep
            subst hstep
            have hin : (nx, ny) ∈ us := by
              obtain ⟨hlt, heq⟩ := List.getElem?_eq_some_iff.1 hpick
              rw [← heq]
              exact List.getElem_mem _
            obtain ⟨h1, h2⟩ := (hmem (nx, ny)).1 hin
            exact ⟨nx, ny, m1, h1, h2, hm1, hm2, rfl, rfl⟩

/-! ## Counting walls -/

theorem wallCount_set (maze : Grid) (i : Nat) (row row1 : List Char)
    (h : maze[i]? = some row) :
    wallCount (maze.set i row1) + row.count '#' = wallCount maze + row1.count '#' := by
  induction maze generalizing i with
  | nil => simp at h
  | cons r rs ih =>
    cases i with
    | zero =>
      simp only [List.getElem?_cons_zero, Option.some.injEq] at h
      subst h
      simp only [wallCount, List.set_cons_zero, List.map_cons, List.sum_cons]
      omega
    | succ i =>
      simp only [List.getElem?_cons_succ] at h
      have := ih i h
      simp only [wallCount, List.set_cons_succ, List.map_cons, List.sum_cons] at this ⊢
      omega

theorem count_wall_set (row : List Char) (i : Nat) (hi : i < row.length) :
    (row.set i ' ').count '#' ≤ row.count '#' ∧
      (row[i]? = some '#' → (row.set i ' ').count '#' + 1 = row.count '#') := by
  rw [List.count_set _ _ _ _ hi]
  have hne : ((' ' : Char) == '#') = false := by decide
  simp only [hne, Bool.false_eq_true, if_false, Nat.add_zero]
  refine ⟨Nat.sub_le _ _, ?_⟩
  intro hw
  have hget : row[i] = '#' := by
    have := List.getElem?_eq_getElem hi
    rw [this] at hw
    exact Option.some.inj hw
  have hpos : 0 < row.count '#' := by
    rw [List.count_pos_iff, ← hget]
    exact List.getElem_mem _
  simp only [hget, beq_self_eq_true, if_true]
  omega

theorem wallCount_setCell {maze m : Grid} {x y : Int} (hset : setCell maze x y ' ' = some m) :
    wallCount m ≤ wallCount maze ∧
      (cellAt maze x y = some '#' → wallCount m + 1 ≤ wallCount maze) := by
  obtain ⟨hx, hy, row, hrow, hlen, rfl⟩ := (setCell_eq_some_iff _ _ _ _ _).1 hset
  have h1 := wallCount_set maze y.toNat row (row.set x.toNat ' ') hrow
  obtain ⟨h2, h3⟩ := count_wall_set row x.toNat hlen
  refine ⟨by omega, ?_⟩
  intro hc
  obtain ⟨-, -, row1, hrow1, hcell⟩ := (cellAt_eq_some_iff _ _ _ _).1 hc
  rw [hrow] at hrow1
  cases hrow1
  have := h3 hcell
  omega

theorem wallCount_replicate (W H : Nat) :
    wallCount (List.replicate H (List.replicate W '#')) = W * H := by
  simp [wallCount, List.map_replicate, List.sum_replicate, Nat.mul_comm]

/-! ## The loop invariant -/

theorem carveStep_inv {w h : Int} {rng : Nat → Nat} {s s1 : DfsState} {x y : Int}
    {rest : List (Int × Int)} (hinv : CarveInv w h s) (hstack : s.stack = (x, y) :: rest)
    (hstep : carveStep w h rng s x y rest = .ok s1) : CarveInv w h s1 := by
  have htop := hinv.stack_ok (x, y) (by rw [hstack]; exact List.mem_cons_self _ _)
  obtain ⟨⟨hxo, hyo, hx1, hx2, hy1, hy2⟩, htopP⟩ := htop
  simp only at hxo hyo hx1 hx2 hy1 hy2 htopP
  rcases carveStep_cases hstep with ⟨rfl, hnone⟩ | ⟨nx, ny, m1, hn, hwall, hm1, hm2, hst, -⟩
  · -- the top of the stack is popped
    refine ⟨hinv.rect, hinv.chars, hinv.start, ?_, hinv.interior, hinv.reach, ?_⟩
    · intro a ha
      exact hinv.stack_ok a (by rw [hstack]; exact List.mem_cons_of_mem _ ha)
    · intro a b hl hp
      rcases hinv.finished a b hl hp with hmem | hdone
      · rw [hstack] at hmem
        rcases List.mem_cons.1 hmem with heq | hmem
        · right
          cases heq
          intro n hnn
          obtain ⟨c, hc, hcw⟩ := hnone n hnn
          rcases cellAt_wallOrPassage hinv.chars hc with h1 | h1
          · exact absurd h1 hcw
          · rw [h1] at hc; exact hc
        · exact Or.inl hmem
      · exact Or.inr hdone
  · -- a wall neighbour is carved and pushed
    rw [mem_neighbors] at hn
    have hmx : (x + nx).tdiv 2 = (x + nx) / 2 := Int.tdiv_eq_ediv (by omega) (by omega)
    have hmy : (y + ny).tdiv 2 = (y + ny) / 2 := Int.tdiv_eq_ediv (by omega) (by omega)
    rw [hmx, hmy] at hm1
    have hpass : ∀ a b, isPassage s1.maze a b ↔
        (a = nx ∧ b = ny) ∨ (a = (x + nx) / 2 ∧ b = (y + ny) / 2) ∨ isPassage s.maze a b := by
      intro a b
      rw [isPassage_setCell hm2, isPassage_setCell hm1]
    have hmono : ∀ a b, isPassage s.maze a b → isPassage s1.maze a b :=
      fun a b hp => (hpass a b).2 (Or.inr (Or.inr hp))
    have hreachTop : Reachable s1.maze (1, 1) (x, y) :=
      Reachable.mono hmono (hinv.reach x y htopP)
    have hreachMid : Reachable s1.maze (1, 1) ((x + nx) / 2, (y + ny) / 2) := by
      refine Reachable.step hreachTop ?_ ((hpass _ _).2 (Or.inr (Or.inl ⟨rfl, rfl⟩)))
      unfold adjacent
      simp only
      omega
    have hreachN : Reachable s1.maze (1, 1) (nx, ny) := by
      refine Reachable.step hreachMid ?_ ((hpass _ _).2 (Or.inl ⟨rfl, rfl⟩))
      unfold adjacent
      simp only
      omega
    refine ⟨setCell_rectangular hm2 (setCell_rectangular hm1 hinv.rect),
      setCell_wallOrPassage hm2 (setCell_wallOrPassage hm1 hinv.chars),
      hmono _ _ hinv.start, ?_, ?_, ?_, ?_⟩
    · intro a ha
      rw [hst] at ha
      rcases List.mem_cons.1 ha with rfl | ha
      · refine ⟨?_, (hpass _ _).2 (Or.inl ⟨rfl, rfl⟩)⟩
        unfold latticeCell
        simp only
        omega
      · have := hinv.stack_ok a (by rw [hstack]; exact ha)
        exact ⟨this.1, hmono _ _ this.2⟩
    · intro a b hp
      rcases (hpass a b).1 hp with ⟨rfl, rfl⟩ | ⟨rfl, rfl⟩ | hp
      · omega
      · omega
      · exact hinv.interior a b hp
    · intro a b hp
      rcases (hpass a b).1 hp with ⟨rfl, rfl⟩ | ⟨rfl, rfl⟩ | hp
      · exact hreachN
      · exact hreachMid
      · exact Reachable.mono hmono (hinv.reach a b hp)
    · intro a b hl hp
      rcases (hpass a b).1 hp with ⟨rfl, rfl⟩ | ⟨rfl, rfl⟩ | hp
      · left; rw [hst]; exact List.mem_cons_self _ _
      · exfalso
        unfold latticeCell at hl
        omega
      · rcases hinv.finished a b hl hp with hmem | hdone
        · left
          rw [hst, ← hstack]
          exact List.mem_cons_of_mem _ hmem
        · right
          intro n hnn
          exact hmono _ _ (hdone n hnn)

theorem carveStep_total {w h : Int} (rng : Nat → Nat) {s : DfsState} {x y : Int}
    {rest : List (Int × Int)} (hinv : CarveInv w h s) (hstack : s.stack = (x, y) :: rest) :
    ∃ s1, carveStep w h rng s x y rest = .ok s1 := by
  have htop := hinv.stack_ok (x, y) (by rw [hstack]; exact List.mem_cons_self _ _)
  obtain ⟨⟨hxo, hyo, hx1, hx2, hy1, hy2⟩, htopP⟩ := htop
  simp only at hxo hyo hx1 hx2 hy1 hy2 htopP
  have hin : ∀ d ∈ neighbors w h x y, ∃ c, cellAt s.maze d.1 d.2 = some c := by
    rintro ⟨a, b⟩ hd
    rw [mem_neighbors] at hd
    refine (cellAt_isSome_iff hinv.rect a b).2 ?_
    omega
  obtain ⟨us, hus⟩ := collectUnvisited_total hin
  obtain ⟨-, hmem⟩ := collectUnvisited_ok hus
  unfold carveStep
  rw [hus]
  simp only
  by_cases hemp : us.isEmpty = true
  · rw [if_pos hemp]
    exact ⟨_, rfl⟩
  · rw [if_neg hemp]
    have hlen : 0 < us.length := by
      cases us with
      | nil => simp at hemp
      | cons _ _ => simp
    have hidx : rng s.draws % us.length < us.length := Nat.mod_lt _ hlen
    rw [List.getElem?_eq_getElem hidx]
    have hn : us[rng s.draws % us.length] ∈ us := List.getElem_mem _
    generalize us[rng s.draws % us.length] = n at hn
    obtain ⟨nx, ny⟩ := n
    obtain ⟨hn1, -⟩ := (hmem _).1 hn
    rw [mem_neighbors] at hn1
    simp only
    have hmx : (x + nx).tdiv 2 = (x + nx) / 2 := Int.tdiv_eq_ediv (by omega) (by omega)
    have hmy : (y + ny).tdiv 2 = (y + ny) / 2 := Int.tdiv_eq_ediv (by omega) (by omega)
    obtain ⟨m1, hm1⟩ := setCell_total hinv.rect ' ' (x := (x + nx).tdiv 2)
      (y := (y + ny).tdiv 2) (by omega) (by omega) (by omega) (by omega)
    rw [hm1]
    simp only
    obtain ⟨m2, hm2⟩ := setCell_total (setCell_rectangular hm1 hinv.rect) ' ' (x := nx)
      (y := ny) (by omega) (by omega) (by omega) (by omega)
    rw [hm2]
    exact ⟨_, rfl⟩

theorem carveStep_measure {w h : Int} {rng : Nat → Nat} {s s1 : DfsState} {x y : Int}
    {rest : List (Int × Int)} (hinv : CarveInv w h s) (hstack : s.stack = (x, y) :: rest)
    (hstep : carveStep w h rng s x y rest = .ok s1) :
    2 * wallCount s1.maze + s1.stack.length < 2 * wallCount s.maze + s.stack.length := by
  have htop := hinv.stack_ok (x, y) (by rw [hstack]; exact List.mem_cons_self _ _)
  obtain ⟨⟨hxo, hyo, hx1, hx2, hy1, hy2⟩, htopP⟩ := htop
  simp only at hxo hyo hx1 hx2 hy1 hy2 htopP
  rcases carveStep_cases hstep with ⟨rfl, -⟩ | ⟨nx, ny, m1, hn, hwall, hm1, hm2, hst, -⟩
  · simp only [hstack, List.length_cons]
    omega
  · rw [mem_neighbors] at hn
    have hmx : (x + nx).tdiv 2 = (x + nx) / 2 := Int.tdiv_eq_ediv (by omega) (by omega)
    have hmy : (y + ny).tdiv 2 = (y + ny) / 2 := Int.tdiv_eq_ediv (by omega) (by omega)
    rw [hmx, hmy] at hm1
    have hwall1 : cellAt m1 nx ny = some '#' := by
      rw [cellAt_setCell hm1, if_neg (by omega)]
      exact hwall
    have h1 := (wallCount_setCell hm1).1
    have h2 := (wallCount_setCell hm2).2 hwall1
    simp only [hst, hstack, List.length_cons]
    omega

/-! ## The carving loop and `generateMaze` -/

theorem carveLoop_spec {w h : Int} (rng : Nat → Nat) :
    ∀ (fuel : Nat) (s : DfsState), CarveInv w h s →
      2 * wallCount s.maze + s.stack.length < fuel →
      ∃ s1, carveLoop w h rng fuel s = .ok s1 ∧ CarveInv w h s1 ∧ s1.stack = [] := by
  intro fuel
  induction fuel with
  | zero => intro s _ hlt; omega
  | succ fuel ih =>
    intro s hinv hlt
    cases hs : s.stack with
    | nil => exact ⟨s, by simp only [carveLoop, hs], hinv, hs⟩
    | cons top rest =>
      obtain ⟨x, y⟩ := top
      obtain ⟨s1, hs1⟩ := carveStep_total rng hinv hs
      have hinv1 := carveStep_inv hinv hs hs1
      have hm := carveStep_measure hinv hs hs1
      obtain ⟨s2, hs2, hinv2, hst2⟩ := ih s1 hinv1 (by omega)
      exact ⟨s2, by simp only [carveLoop, hs, hs1, hs2], hinv2, hst2⟩

theorem normalize_spec (w : Int) (hw : 0 ≤ w) :
    normalize w = (if w % 2 = 0 then w + 1 else w) ∧ normalize w % 2 = 1 := by
  unfold normalize
  rw [Int.tmod_eq_emod hw (by omega)]
  by_cases h : w % 2 = 0
  · rw [if_pos h]; exact ⟨rfl, by omega⟩
  · rw [if_neg h]; exact ⟨rfl, by omega⟩

theorem cellAt_replicate (W H : Nat) (c : Char) (x y : Int) :
    cellAt (List.replicate H (List.replicate W c)) x y =
      if 0 ≤ x ∧ x < W ∧ 0 ≤ y ∧ y < H then some c else none := by
  unfold cellAt
  by_cases hxy : 0 ≤ x ∧ 0 ≤ y
  · rw [if_pos hxy, List.getElem?_replicate]
    by_cases hy : y.toNat < H
    · rw [if_pos hy]
      simp only [List.getElem?_replicate]
      by_cases hx : x.toNat < W
      · rw [if_pos hx, if_pos (by omega)]
      · rw [if_neg hx, if_neg (by omega)]
    · rw [if_neg hy, if_neg (by omega)]
  · rw [if_neg hxy, if_neg (by omega)]

theorem replicate_rectangular (W H : Nat) (c : Char) :
    Rectangular (List.replicate H (List.replicate W c)) W H := by
  refine ⟨List.length_replicate _ _, ?_⟩
  intro row hrow
  rw [List.eq_of_mem_replicate hrow, List.length_replicate]

theorem replicate_wallOrPassage (W H : Nat) :
    WallOrPassage (List.replicate H (List.replicate W '#')) := by
  intro row hrow c hc
  rw [List.eq_of_mem_replicate hrow] at hc
  exact Or.inl (List.eq_of_mem_replicate hc)

theorem carveInv_init {w h : Int} (hw : 3 ≤ w) (hh : 3 ≤ h) {m0 : Grid}
    (hset : setCell (List.replicate h.toNat (List.replicate w.toNat '#')) 1 1 ' ' = some m0) :
    CarveInv w h { maze := m0, stack := [(1, 1)], draws := 0 } := by
  have hpass : ∀ a b, isPassage m0 a b ↔ a = 1 ∧ b = 1 := by
    intro a b
    rw [isPassage_setCell hset]
    constructor
    · rintro (h1 | h1)
      · exact h1
      · unfold isPassage at h1
        rw [cellAt_replicate] at h1
        split at h1
        · exact absurd (Option.some.inj h1) (by decide)
        · cases h1
    · exact Or.inl
  have hstart : isPassage m0 1 1 := (hpass 1 1).2 ⟨rfl, rfl⟩
  refine ⟨setCell_rectangular hset (replicate_rectangular _ _ _),
    setCell_wallOrPassage hset (replicate_wallOrPassage _ _), hstart, ?_, ?_, ?_, ?_⟩
  · intro a ha
    rw [List.mem_singleton] at ha
    subst ha
    refine ⟨?_, hstart⟩
    unfold latticeCell
    simp only
    omega
  · intro a b hp
    obtain ⟨rfl, rfl⟩ := (hpass a b).1 hp
    omega
  · intro a b hp
    obtain ⟨rfl, rfl⟩ := (hpass a b).1 hp
    exact Reachable.refl _ hstart
  · intro a b _ hp
    obtain ⟨rfl, rfl⟩ := (hpass a b).1 hp
    exact Or.inl (List.mem_singleton.2 rfl)

/-- For requested dimensions of at least 3, `generateMaze` returns the maze of a final
state of the carving loop: the invariant holds and the stack is empty. -/
theorem generateMaze_spec (w h : Int) (rng : Nat → Nat) (hw : 3 ≤ w) (hh : 3 ≤ h) :
    ∃ s, generateMaze w h rng = .ok s.maze ∧ CarveInv (normalize w) (normalize h) s ∧
      s.stack = [] := by
  obtain ⟨hnw, -⟩ := normalize_spec w (by omega)
  obtain ⟨hnh, -⟩ := normalize_spec h (by omega)
  have hW : 3 ≤ normalize w := by rw [hnw]; split <;> omega
  have hH : 3 ≤ normalize h := by rw [hnh]; split <;> omega
  obtain ⟨m0, hm0⟩ := setCell_total
    (replicate_rectangular (normalize w).toNat (normalize h).toNat '#') ' '
    (x := 1) (y := 1) (by omega) (by omega) (by omega) (by omega)
  have hinit := carveInv_init hW hH hm0
  have hcount : 2 * wallCount m0 + 1 < 2 * (normalize w).toNat * (normalize h).toNat := by
    have h1 := (wallCount_setCell hm0).2 (by
      rw [cellAt_replicate, if_pos (by omega)])
    rw [wallCount_replicate] at h1
    have : 2 * (normalize w).toNat * (normalize h).toNat
        = 2 * ((normalize w).toNat * (normalize h).toNat) := Nat.mul_assoc _ _ _
    omega
  obtain ⟨s1, hs1, hinv1, hst1⟩ :=
    carveLoop_spec rng (2 * (normalize w).toNat * (normalize h).toNat) _ hinit
      (by simpa using hcount)
  refine ⟨s1, ?_, hinv1, hst1⟩
  unfold generateMaze
  simp only
  rw [if_neg (by omega), hm0]
  simp only
  rw [hs1]

theorem lattice_passage {w h : Int} {s : DfsState} (hinv : CarveInv w h s)
    (hempty : s.stack = []) :
    ∀ (k : Nat) (x y : Int), latticeCell w h x y → x + y ≤ 2 + 2 * (k : Int) →
      isPassage s.maze x y := by
  intro k
  induction k with
  | zero =>
    intro x y hl hk
    unfold latticeCell at hl
    have hx : x = 1 := by omega
    have hy : y = 1 := by omega
    subst hx hy
    exact hinv.start
  | succ k ih =>
    intro x y hl hk
    unfold latticeCell at hl
    by_cases hx : 1 < x
    · have hl1 : latticeCell w h (x - 2) y := by unfold latticeCell; omega
      have hp := ih (x - 2) y hl1 (by push_cast at hk; omega)
      rcases hinv.finished _ _ hl1 hp with hmem | hdone
      · rw [hempty] at hmem; cases hmem
      · exact hdone (x, y) ((mem_neighbors _ _ _ _ _ _).2 (by omega))
    · by_cases hy : 1 < y
      · have hl1 : latticeCell w h x (y - 2) := by unfold latticeCell; omega
        have hp := ih x (y - 2) hl1 (by push_cast at hk; omega)
        rcases hinv.finished _ _ hl1 hp with hmem | hdone
        · rw [hempty] at hmem; cases hmem
        · exact hdone (x, y) ((mem_neighbors _ _ _ _ _ _).2 (by omega))
      · have hx1 : x = 1 := by omega
        have hy1 : y = 1 := by omega
        subst hx1 hy1
        exact hinv.start

theorem width_height_of_rectangular {maze : Grid} {W H : Nat} (hr : Rectangular maze W H)
    (hH : 0 < H) : width maze = W ∧ height maze = H := by
  obtain ⟨hlen, hrows⟩ := hr
  refine ⟨?_, hlen⟩
  cases maze with
  | nil => simp at hlen; omega
  | cons row rest => exact hrows row (List.mem_cons_self _ _)

/-- For requested dimensions of at least 3, the level grid is the generated maze with the
cell `(W - 1, H - 2)` carved, where `W × H` are the normalised dimensions. -/
theorem levelGrid_spec (w h : Int) (rng : Nat → Nat) (hw : 3 ≤ w) (hh : 3 ≤ h) :
    ∃ s maze, generateMaze w h rng = .ok s.maze ∧ CarveInv (normalize w) (normalize h) s ∧
      s.stack = [] ∧ levelGrid w h rng = .ok maze ∧
      setCell s.maze (normalize w - 1) (normalize h - 2) ' ' = some maze ∧
      (width maze : Int) = normalize w ∧ (height maze : Int) = normalize h := by
  obtain ⟨s, hgen, hinv, hst⟩ := generateMaze_spec w h rng hw hh
  obtain ⟨hnw, -⟩ := normalize_spec w (by omega)
  obtain ⟨hnh, -⟩ := normalize_spec h (by omega)
  have hW : 3 ≤ normalize w := by rw [hnw]; split <;> omega
  have hH : 3 ≤ normalize h := by rw [hnh]; split <;> omega
  obtain ⟨hwd, hht⟩ := width_height_of_rectangular hinv.rect (by omega)
  obtain ⟨maze, hmaze⟩ := setCell_total hinv.rect ' ' (x := normalize w - 1)
    (y := normalize h - 2) (by omega) (by omega) (by omega) (by omega)
  obtain ⟨hwd1, hht1⟩ := width_height_of_rectangular (setCell_rectangular hmaze hinv.rect)
    (by omega)
  have hwi : (width s.maze : Int) = normalize w := by rw [hwd]; omega
  have hhi : (height s.maze : Int) = normalize h := by rw [hht]; omega
  refine ⟨s, maze, hgen, hinv, hst, ?_, hmaze, by rw [hwd1]; omega, by rw [hht1]; omega⟩
  unfold levelGrid
  rw [hgen]
  simp only
  unfold carveExit
  cases hm : s.maze with
  | nil =>
    rw [hm] at hht
    simp [height] at hht
    omega
  | cons row rest =>
    simp only
    rw [← hm, hwi, hhi, hmaze]

/-! ## The generated maze -/

theorem toInt32_of_lt {n : Nat} (h : n < 2147483648) : toInt32 n = (n : Int) := by
  unfold toInt32
  omega

theorem narrow_of_small (maze : Grid) {n : Nat} (h : n < 2147483648) :
    narrow maze n = (n : Int) := by
  unfold narrow
  split
  · exact toInt32_of_lt h
  · rfl

theorem narrow_of_inside (maze : Grid) {n : Nat} (h : n < width maze ∨ n < height maze) :
    narrow maze n = (n : Int) := by
  unfold narrow
  split
  · rename_i hfit
    exact toInt32_of_lt (by omega)
  · rfl

theorem forwardTarget_eq (maze : Grid) (p : Player) (hx : narrow maze p.x = (p.x : Int))
    (hy : narrow maze p.y = (p.y : Int)) : forwardTarget maze p = stepTarget p 1 := by
  cases p with
  | mk x y dir =>
    simp only at hx hy
    cases dir <;> simp [forwardTarget, stepTarget, forwardVector, hx, hy] <;> rfl

theorem backwardTarget_eq (maze : Grid) (p : Player) (hx : narrow maze p.x = (p.x : Int))
    (hy : narrow maze p.y = (p.y : Int)) : backwardTarget maze p = stepTarget p (-1) := by
  cases p with
  | mk x y dir =>
    simp only at hx hy
    cases dir <;> simp [backwardTarget, stepTarget, forwardVector, hx, hy] <;> rfl

/-- For a player inside the grid the step functions compute the exact targets. -/
theorem targets_of_inside (maze : Grid) (p : Player) (hx : p.x < width maze)
    (hy : p.y < height maze) :
    forwardTarget maze p = stepTarget p 1 ∧ backwardTarget maze p = stepTarget p (-1) :=
  ⟨forwardTarget_eq maze p (narrow_of_inside maze (Or.inl hx))
      (narrow_of_inside maze (Or.inr hy)),
    backwardTarget_eq maze p (narrow_of_inside maze (Or.inl hx))
      (narrow_of_inside maze (Or.inr hy))⟩

/-- For a player whose coordinates fit an `int` the step functions compute the exact
targets. -/
theorem targets_of_small (maze : Grid) (p : Player) (hx : p.x < 2147483648)
    (hy : p.y < 2147483648) :
    forwardTarget maze p = stepTarget p 1 ∧ backwardTarget maze p = stepTarget p (-1) :=
  ⟨forwardTarget_eq maze p (narrow_of_small maze hx) (narrow_of_small maze hy),
    backwardTarget_eq maze p (narrow_of_small maze hx) (narrow_of_small maze hy)⟩

theorem outsideGrid_iff (maze : Grid) (c : Int × Int) :
    outsideGrid maze c.1 c.2 ↔ ¬ insideGrid maze c := by
  unfold outsideGrid insideGrid
  omega

/-- The four ways `moveForward` can end, on the target `t` it computes. -/
theorem moveForward_target_cases (maze : Grid) (p : Player) (t : Int × Int)
    (ht : forwardTarget maze p = t) :
    (¬ insideGrid maze t ∧ moveForward maze p =
      .ok (p, "You bump into the boundary. Still facing " ++ directionName p.dir ++ ".")) ∨
    (insideGrid maze t ∧ cellAt maze t.1 t.2 = none ∧
      moveForward maze p = .error Fault.outOfRange) ∨
    (insideGrid maze t ∧ isPassage maze t.1 t.2 ∧
      moveForward maze p =
        .ok ({ x := t.1.toNat, y := t.2.toNat, dir := p.dir },
          "You move forward. Facing " ++ directionName p.dir ++ ".")) ∨
    (insideGrid maze t ∧ (∃ c, cellAt maze t.1 t.2 = some c ∧ c ≠ ' ') ∧
      moveForward maze p =
        .ok (p, "You bump into a wall. Still facing " ++ directionName p.dir ++ ".")) := by
  have hdef : moveForward maze p =
      if outsideGrid maze (forwardTarget maze p).1 (forwardTarget maze p).2 then
        .ok (p, "You bump into the boundary. Still facing " ++ directionName p.dir ++ ".")
      else
        match cellAt maze (forwardTarget maze p).1 (forwardTarget maze p).2 with
        | none => .error Fault.outOfRange
        | some c =>
          if c = ' ' then
            .ok ({ p with x := (forwardTarget maze p).1.toNat,
                          y := (forwardTarget maze p).2.toNat },
              "You move forward. Facing " ++ directionName p.dir ++ ".")
          else
            .ok (p, "You bump into a wall. Still facing " ++ directionName p.dir ++ ".") := rfl
  rw [hdef, ht]
  by_cases hin : insideGrid maze t
  · rw [if_neg (fun ho => (outsideGrid_iff maze _).1 ho hin)]
    cases hc : cellAt maze t.1 t.2 with
    | none => exact Or.inr (Or.inl ⟨hin, rfl, rfl⟩)
    | some c =>
      by_cases hcp : c = ' '
      · subst hcp
        exact Or.inr (Or.inr (Or.inl ⟨hin, hc, by simp⟩))
      · exact Or.inr (Or.inr (Or.inr ⟨hin, ⟨c, rfl, hcp⟩, by simp [hcp]⟩))
  · rw [if_pos ((outsideGrid_iff maze _).2 hin)]
    exact Or.inl ⟨hin, rfl⟩

/-- The four ways `moveBackward` can end, on the target `t` it computes. -/
theorem moveBackward_target_cases (maze : Grid) (p : Player) (t : Int × Int)
    (ht : backwardTarget maze p = t) :
    (¬ insideGrid maze t ∧ moveBackward maze p =
      .ok (p, "You back into the boundary. Still facing " ++ directionName p.dir ++ ".")) ∨
    (insideGrid maze t ∧ cellAt maze t.1 t.2 = none ∧
      moveBackward maze p = .error Fault.outOfRange) ∨
    (insideGrid maze t ∧ isPassage maze t.1 t.2 ∧
      moveBackward maze p =
        .ok ({ x := t.1.toNat, y := t.2.toNat, dir := p.dir },
          "You step backward. Facing " ++ directionName p.dir ++ ".")) ∨
    (insideGrid maze t ∧ (∃ c, cellAt maze t.1 t.2 = some c ∧ c ≠ ' ') ∧
      moveBackward maze p =
        .ok (p, "You step back into a wall. Still facing " ++ directionName p.dir ++ ".")) := by
  have hdef : moveBackward maze p =
      if outsideGrid maze (backwardTarget maze p).1 (backwardTarget maze p).2 then
        .ok (p, "You back into the boundary. Still facing " ++ directionName p.dir ++ ".")
      else
        match cellAt maze (backwardTarget maze p).1 (backwardTarget maze p).2 with
        | none => .error Fault.outOfRange
        | some c =>
          if c = ' ' then
            .ok ({ p with x := (backwardTarget maze p).1.toNat,
                          y := (backwardTarget maze p).2.toNat },
              "You step backward. Facing " ++ directionName p.dir ++ ".")
          else
            .ok (p, "You step back into a wall. Still facing " ++ directionName p.dir ++ ".") :=
    rfl
  rw [hdef, ht]
  by_cases hin : insideGrid maze t
  · rw [if_neg (fun ho => (outsideGrid_iff maze _).1 ho hin)]
    cases hc : cellAt maze t.1 t.2 with
    | none => exact Or.inr (Or.inl ⟨hin, rfl, rfl⟩)
    | some c =>
      by_cases hcp : c = ' '
      · subst hcp
        exact Or.inr (Or.inr (Or.inl ⟨hin, hc, by simp⟩))
      · exact Or.inr (Or.inr (Or.inr ⟨hin, ⟨c, rfl, hcp⟩, by simp [hcp]⟩))
  · rw [if_pos ((outsideGrid_iff maze _).2 hin)]
    exact Or.inl ⟨hin, rfl⟩

/-- The four ways `moveForward` can end when the narrowing of the player's coordinates is
exact. -/
theorem moveForward_cases (maze : Grid) (p : Player)
    (ht : forwardTarget maze p = stepTarget p 1) :
    (¬ insideGrid maze (stepTarget p 1) ∧ moveForward maze p =
      .ok (p, "You bump into the boundary. Still facing " ++ directionName p.dir ++ ".")) ∨
    (insideGrid maze (stepTarget p 1) ∧ cellAt maze (stepTarget p 1).1 (stepTarget p 1).2 = none ∧
      moveForward maze p = .error Fault.outOfRange) ∨
    (insideGrid maze (stepTarget p 1) ∧ isPassage maze (stepTarget p 1).1 (stepTarget p 1).2 ∧
      moveForward maze p =
        .ok ({ x := (stepTarget p 1).1.toNat, y := (stepTarget p 1).2.toNat, dir := p.dir },
          "You move forward. Facing " ++ directionName p.dir ++ ".")) ∨
    (insideGrid maze (stepTarget p 1) ∧
      (∃ c, cellAt maze (stepTarget p 1).1 (stepTarget p 1).2 = some c ∧ c ≠ ' ') ∧
      moveForward maze p =
        .ok (p, "You bump into a wall. Still facing " ++ directionName p.dir ++ ".")) :=
  moveForward_target_cases maze p (stepTarget p 1) ht

/-- The four ways `moveBackward` can end when the narrowing of the player's coordinates is
exact. -/
theorem moveBackward_cases (maze : Grid) (p : Player)
    (ht : backwardTarget maze p = stepTarget p (-1)) :
    (¬ insideGrid maze (stepTarget p (-1)) ∧ moveBackward maze p =
      .ok (p, "You back into the boundary. Still facing " ++ directionName p.dir ++ ".")) ∨
    (insideGrid maze (stepTarget p (-1)) ∧
      cellAt maze (stepTarget p (-1)).1 (stepTarget p (-1)).2 = none ∧
      moveBackward maze p = .error Fault.outOfRange) ∨
    (insideGrid maze (stepTarget p (-1)) ∧
      isPassage maze (stepTarget p (-1)).1 (stepTarget p (-1)).2 ∧
      moveBackward maze p =
        .ok ({ x := (stepTarget p (-1)).1.toNat, y := (stepTarget p (-1)).2.toNat, dir := p.dir },
          "You step backward. Facing " ++ directionName p.dir ++ ".")) ∨
    (insideGrid maze (stepTarget p (-1)) ∧
      (∃ c, cellAt maze (stepTarget p (-1)).1 (stepTarget p (-1)).2 = some c ∧ c ≠ ' ') ∧
      moveBackward maze p =
        .ok (p, "You step back into a wall. Still facing " ++ directionName p.dir ++ ".")) :=
  moveBackward_target_cases maze p (stepTarget p (-1)) ht

theorem cellAt_of_inside {maze : Grid} (hrect : ∀ row ∈ maze, row.length = width maze)
    {c : Int × Int} (hin : insideGrid maze c) : ∃ ch, cellAt maze c.1 c.2 = some ch :=
  (cellAt_isSome_iff (W := width maze) (H := height maze) ⟨rfl, hrect⟩ c.1 c.2).2 hin

theorem moved_not_bump (d : Direction) :
    ¬ isBumpMessage ("You move forward. Facing " ++ directionName d ++ ".") ∧
      ¬ isBumpMessage ("You step backward. Facing " ++ directionName d ++ ".") := by
  constructor <;> rintro ⟨e, h⟩ <;> cases d <;> cases e <;> revert h <;> decide

theorem moved_ne_others (d : Direction) :
    ("You bump into the boundary. Still facing " ++ directionName d ++ "." ≠
      "You move forward. Facing " ++ directionName d ++ ".") ∧
    ("You bump into a wall. Still facing " ++ directionName d ++ "." ≠
      "You move forward. Facing " ++ directionName d ++ ".") := by
  cases d <;> decide

/-- C6: whenever `moveForward` or `moveBackward` ends with a bump message, the player's
`x`, `y` and `dir` are the same after the command as before it. -/
theorem bump_keeps_player (maze : Grid) (p p1 : Player) (msg : String)
    (hrun : moveForward maze p = .ok (p1, msg) ∨ moveBackward maze p = .ok (p1, msg))
    (hbump : isBumpMessage msg) : p1.x = p.x ∧ p1.y = p.y ∧ p1.dir = p.dir := by
  have key : p1 = p := by
    rcases hrun with hrun | hrun
    · rcases moveForward_target_cases maze p _ rfl with ⟨-, h⟩ | ⟨-, -, h⟩ | ⟨-, -, h⟩ | ⟨-, -, h⟩
      all_goals rw [h] at hrun
      · injection hrun with h1; injection h1 with h2 h3; exact h2.symm
      · cases hrun
      · injection hrun with h1; injection h1 with h2 h3
        rw [← h3] at hbump
        exact absurd hbump (moved_not_bump p.dir).1
      · injection hrun with h1; injection h1 with h2 h3; exact h2.symm
    · rcases moveBackward_target_cases maze p _ rfl with ⟨-, h⟩ | ⟨-, -, h⟩ | ⟨-, -, h⟩ | ⟨-, -, h⟩
      all_goals rw [h] at hrun
      · injection hrun with h1; injection h1 with h2 h3; exact h2.symm
      · cases hrun
      · injection hrun with h1; injection h1 with h2 h3
        rw [← h3] at hbump
        exact absurd hbump (moved_not_bump p.dir).2
      · injection hrun with h1; injection h1 with h2 h3; exact h2.symm
  rw [key]
  exact ⟨rfl, rfl, rfl⟩

/-- C6 on `exampleGrid`: from `(1, 1)` facing NORTH the player bumps into a wall and stays. -/
theorem bump_keeps_player_witness :
    moveForward exampleGrid { x := 1, y := 1, dir := Direction.NORTH } =
        .ok ({ x := 1, y := 1, dir := Direction.NORTH }, "You bump into a wall. Still facing north.") ∧
      isBumpMessage "You bump into a wall. Still facing north." ∧
      ((1 : Nat) = 1 ∧ (1 : Nat) = 1 ∧ Direction.NORTH = Direction.NORTH) :=
  ⟨by rfl, ⟨Direction.NORTH, Or.inl (by decide)⟩,
    bump_keeps_player exampleGrid { x := 1, y := 1, dir := Direction.NORTH }
      { x := 1, y := 1, dir := Direction.NORTH } "You bump into a wall. Still facing north."
      (Or.inl (by rfl)) ⟨Direction.NORTH, Or.inl (by decide)⟩⟩

theorem stepTarget_back {maze : Grid} (p : Player) (hin : insideGrid maze (stepTarget p 1)) :
    stepTarget { x := (stepTarget p 1).1.toNat, y := (stepTarget p 1).2.toNat, dir := p.dir } (-1)
      = ((p.x : Int), (p.y : Int)) := by
  obtain ⟨x, y, dir⟩ := p
  unfold insideGrid at hin
  cases dir <;> simp only [stepTarget, forwardVector] at hin ⊢ <;>
    refine Prod.ext ?_ ?_ <;> simp only <;> omega

/-- C8: `turnLeft` then `turnRight`, and `turnRight` then `turnLeft`, both give back the
original player: same `x`, `y` and `dir`. -/
theorem turn_round_trip (p : Player) :
    ((turnRight (turnLeft p).1).1.x = p.x ∧ (turnRight (turnLeft p).1).1.y = p.y ∧
      (turnRight (turnLeft p).1).1.dir = p.dir) ∧
    ((turnLeft (turnRight p).1).1.x = p.x ∧ (turnLeft (turnRight p).1).1.y = p.y ∧
      (turnLeft (turnRight p).1).1.dir = p.dir) := by
  obtain ⟨x, y, dir⟩ := p
  cases dir <;> simp [turnLeft, turnRight, Direction.code, Direction.cast]

theorem playerOK_target {maze : Grid} {t : Int × Int} (d : Direction)
    (hin : insideGrid maze t) (hp : isPassage maze t.1 t.2) :
    playerOK maze { x := t.1.toNat, y := t.2.toNat, dir := d } := by
  unfold insideGrid at hin
  refine ⟨by simp only; omega, by simp only; omega, ?_⟩
  simp only
  rw [Int.toNat_of_nonneg hin.1, Int.toNat_of_nonneg hin.2.2.1]
  exact hp

/-- On a rectangular grid every command succeeds and keeps the player inside the grid on a
passage. -/
theorem applyCommand_playerOK {maze : Grid} (hrect : ∀ row ∈ maze, row.length = width maze)
    {p : Player} (hok : playerOK maze p) (c : Command) :
    ∃ p1 m1, applyCommand maze p c = .ok (p1, m1) ∧ playerOK maze p1 := by
  obtain ⟨hft, hbt⟩ := targets_of_inside maze p hok.1 hok.2.1
  cases c with
  | turnLeft => exact ⟨_, _, rfl, hok⟩
  | turnRight => exact ⟨_, _, rfl, hok⟩
  | unknown => exact ⟨_, _, rfl, hok⟩
  | moveForward =>
    show ∃ p1 m1, moveForward maze p = .ok (p1, m1) ∧ playerOK maze p1
    rcases moveForward_cases maze p hft with ⟨-, h⟩ | ⟨hin, hc, -⟩ | ⟨hin, hp, h⟩ | ⟨-, -, h⟩
    · exact ⟨_, _, h, hok⟩
    · obtain ⟨ch, hch⟩ := cellAt_of_inside hrect hin
      rw [hch] at hc; cases hc
    · exact ⟨_, _, h, playerOK_target p.dir hin hp⟩
    · exact ⟨_, _, h, hok⟩
  | moveBackward =>
    show ∃ p1 m1, moveBackward maze p = .ok (p1, m1) ∧ playerOK maze p1
    rcases moveBackward_cases maze p hbt with ⟨-, h⟩ | ⟨hin, hc, -⟩ | ⟨hin, hp, h⟩ | ⟨-, -, h⟩
    · exact ⟨_, _, h, hok⟩
    · obtain ⟨ch, hch⟩ := cellAt_of_inside hrect hin
      rw [hch] at hc; cases hc
    · exact ⟨_, _, h, playerOK_target p.dir hin hp⟩
    · exact ⟨_, _, h, hok⟩

theorem runCommands_playerOK {maze : Grid} (hrect : ∀ row ∈ maze, row.length = width maze)
    (cmds : List Command) :
    ∀ (p : Player) (msg : String), playerOK maze p →
      ∃ p1 m1, runCommands maze p msg cmds = .ok (p1, m1) ∧ playerOK maze p1 := by
  induction cmds with
  | nil => intro p msg hok; exact ⟨p, msg, rfl, hok⟩
  | cons c cs ih =>
    intro p msg hok
    obtain ⟨p1, m1, h1, hok1⟩ := applyCommand_playerOK hrect hok c
    obtain ⟨p2, m2, h2, hok2⟩ := ih p1 m1 hok1
    exact ⟨p2, m2, by simp only [runCommands, h1, h2], hok2⟩

theorem runCommands_append (maze : Grid) (cs ds : List Command) :
    ∀ (p : Player) (m : String) (q : Player × String),
      runCommands maze p m cs = .ok q →
      runCommands maze p m (cs ++ ds) = runCommands maze q.1 q.2 ds := by
  induction cs with
  | nil =>
    intro p m q hq
    simp only [runCommands] at hq
    injection hq with hq
    subst hq
    rfl
  | cons c cs ih =>
    intro p m q hq
    simp only [runCommands, List.cons_append] at hq ⊢
    cases hc : applyCommand maze p c with
    | error e => rw [hc] at hq; cases hq
    | ok r =>
      obtain ⟨p1, m1⟩ := r
      rw [hc] at hq
      simp only at hq ⊢
      exact ih p1 m1 q hq

/-- The trace of the game loop, for a step invariant `Inv` that holds of the player before
every command and a property `Post` relating the player before a command to the player and
message after it. -/
theorem playLevel_spec {maze : Grid} (Inv : Player → Prop)
    (Post : Player → Player × String → Prop)
    (hstep : ∀ p c, Inv p → ∃ q, applyCommand maze p c = .ok q ∧ Post p q ∧
      (¬ won maze q.1 → Inv q.1)) :
    ∀ (cmds : List Command) (p : Player) (m : String), Inv p →
      ∃ t, playLevel maze p cmds = .ok t ∧ t.length ≤ cmds.length ∧
        (∀ i q, t[i]? = some q →
          runCommands maze p m (cmds.take (i + 1)) = .ok q ∧
          (∃ prev, ((i = 0 ∧ prev = p) ∨ ∃ j m1, i = j + 1 ∧ t[j]? = some (prev, m1)) ∧
            Inv prev ∧ Post prev q) ∧
          (won maze q.1 → i + 1 = t.length) ∧ (i + 1 < t.length → Inv q.1)) ∧
        (t.length < cmds.length → ∃ q, t[t.length - 1]? = some q ∧ won maze q.1) := by
  intro cmds
  induction cmds with
  | nil =>
    intro p m _
    refine ⟨[], rfl, Nat.le_refl _, ?_, ?_⟩
    · intro i q hq
      simp at hq
    · intro h
      simp at h
  | cons c cs ih =>
    intro p m hp
    obtain ⟨⟨p1, m1⟩, hq, hpost, hinv⟩ := hstep p c hp
    by_cases hwon : won maze p1
    · refine ⟨[(p1, m1)], by simp only [playLevel, hq, if_pos hwon], by simp, ?_, ?_⟩
      · intro i q hi
        cases i with
        | zero =>
          simp only [List.getElem?_cons_zero, Option.some.injEq] at hi
          subst hi
          refine ⟨by simp only [List.take, runCommands, hq],
            ⟨p, Or.inl ⟨rfl, rfl⟩, hp, hpost⟩, fun _ => rfl, ?_⟩
          intro h
          simp at h
        | succ i => simp at hi
      · intro _
        exact ⟨(p1, m1), rfl, hwon⟩
    · obtain ⟨t, ht, hlen, hall, hlast⟩ := ih p1 m1 (hinv hwon)
      refine ⟨(p1, m1) :: t, by simp only [playLevel, hq, if_neg hwon, ht],
        by simp only [List.length_cons]; omega, ?_, ?_⟩
      · intro i q hi
        cases i with
        | zero =>
          simp only [List.getElem?_cons_zero, Option.some.injEq] at hi
          subst hi
          refine ⟨by simp only [List.take, runCommands, hq],
            ⟨p, Or.inl ⟨rfl, rfl⟩, hp, hpost⟩, fun h => absurd h hwon, fun _ => hinv hwon⟩
        | succ i =>
          simp only [List.getElem?_cons_succ] at hi
          obtain ⟨h1, ⟨prev, hprev, hpi, hpp⟩, h3, h4⟩ := hall i q hi
          refine ⟨by simp only [List.take, runCommands, hq]; exact h1,
            ⟨prev, Or.inr ?_, hpi, hpp⟩, ?_, ?_⟩
          · rcases hprev with ⟨rfl, rfl⟩ | ⟨j, m2, rfl, hj⟩
            · exact ⟨0, m1, rfl, List.getElem?_cons_zero⟩
            · exact ⟨j + 1, m2, rfl, by simp only [List.getElem?_cons_succ]; exact hj⟩
          · intro h
            have := h3 h
            simp only [List.length_cons]
            omega
          · intro h
            simp only [List.length_cons] at h
            exact h4 (by omega)
      · intro h
        simp only [List.length_cons] at h
        obtain ⟨q, hq1, hq2⟩ := hlast (by omega)
        have hpos : 0 < t.length := by
          rcases Nat.eq_zero_or_pos t.length with h0 | h0
          · rw [h0] at hq1
            rw [List.length_eq_zero] at h0
            rw [h0] at hq1
            simp at hq1
          · exact h0
        refine ⟨q, ?_, hq2⟩
        simp only [List.length_cons]
        have : t.length + 1 - 1 = (t.length - 1) + 1 := by omega
        rw [this, List.getElem?_cons_succ]
        exact hq1

/-- The facts about a level grid used by the game loop: its dimensions, the start, the place
of its passages and the reachability of the exit. -/
theorem levelGrid_play (w h : Int) (rng : Nat → Nat) (hw : 5 ≤ w) (hh : 5 ≤ h) :
    ∃ maze, levelGrid w h rng = .ok maze ∧
      (width maze : Int) = normalize w ∧ (height maze : Int) = normalize h ∧
      5 ≤ normalize w ∧ 5 ≤ normalize h ∧
      (∀ row ∈ maze, row.length = width maze) ∧
      playerOK maze { x := 1, y := 1, dir := Direction.NORTH } ∧
      (∀ x y, isPassage maze x y →
        (1 ≤ x ∧ x ≤ normalize w - 2 ∧ 1 ≤ y ∧ y ≤ normalize h - 2) ∨
        (x = normalize w - 1 ∧ y = normalize h - 2)) ∧
      WallOrPassage maze ∧
      Reachable maze (1, 1) (normalize w - 1, normalize h - 2) := by
  obtain ⟨s, maze, -, hinv, hst, hlevel, hset, hwd, hht⟩ :=
    levelGrid_spec w h rng (by omega) (by omega)
  obtain ⟨hnw, hwo⟩ := normalize_spec w (by omega)
  obtain ⟨hnh, hho⟩ := normalize_spec h (by omega)
  have hW : 5 ≤ normalize w := by rw [hnw]; split <;> omega
  have hH : 5 ≤ normalize h := by rw [hnh]; split <;> omega
  have hr := setCell_rectangular hset hinv.rect
  obtain ⟨hwd1, -⟩ := width_height_of_rectangular hr (by omega)
  have hrect : ∀ row ∈ maze, row.length = width maze := by
    intro row hrow
    rw [hwd1]
    exact hr.2 row hrow
  have hmono : ∀ x y, isPassage s.maze x y → isPassage maze x y :=
    fun x y hp => (isPassage_setCell hset x y).2 (Or.inr hp)
  have hstart : playerOK maze { x := 1, y := 1, dir := Direction.NORTH } := by
    refine ⟨?_, ?_, hmono _ _ hinv.start⟩
    · show 1 < width maze
      omega
    · show 1 < height maze
      omega
  have hcorner : isPassage s.maze (normalize w - 2) (normalize h - 2) :=
    lattice_passage hinv hst (normalize w + normalize h).toNat _ _
      (by unfold latticeCell; omega) (by omega)
  have hexitR : Reachable maze (1, 1) (normalize w - 1, normalize h - 2) := by
    refine Reachable.step (Reachable.mono hmono (hinv.reach _ _ hcorner)) ?_
      ((isPassage_setCell hset _ _).2 (Or.inl ⟨rfl, rfl⟩))
    refine Or.inr ⟨rfl, Or.inr ?_⟩
    show normalize w - 1 = normalize w - 2 + 1
    omega
  refine ⟨maze, hlevel, hwd, hht, hW, hH, hrect, hstart, ?_,
    setCell_wallOrPassage hset hinv.chars, hexitR⟩
  intro x y hp
  rcases (isPassage_setCell hset x y).1 hp with hxy | hp
  · exact Or.inr hxy
  · exact Or.inl (hinv.interior x y hp)

theorem normalize_le (w : Int) : w ≤ normalize w ∧ normalize w ≤ w + 1 := by
  unfold normalize
  split <;> omega

/-- For normalised dimensions of at least 3, the run of `generateMaze`: the start cell is
carved, the carving loop ends within its fuel with the invariant and an empty stack, and the
maze of the final state is returned. -/
theorem generateMaze_run (w h : Int) (rng : Nat → Nat) (hW : 3 ≤ normalize w)
    (hH : 3 ≤ normalize h) :
    ∃ m0 s,
      setCell (List.replicate (normalize h).toNat (List.replicate (normalize w).toNat '#'))
        1 1 ' ' = some m0 ∧
      carveLoop (normalize w) (normalize h) rng (2 * (normalize w).toNat * (normalize h).toNat)
        { maze := m0, stack := [(1, 1)], draws := 0 } = .ok s ∧
      generateMaze w h rng = .ok s.maze ∧ CarveInv (normalize w) (normalize h) s ∧
      s.stack = [] := by
  obtain ⟨m0, hm0⟩ := setCell_total
    (replicate_rectangular (normalize w).toNat (normalize h).toNat '#') ' '
    (x := 1) (y := 1) (by omega) (by omega) (by omega) (by omega)
  have hinit := carveInv_init hW hH hm0
  have hcount : 2 * wallCount m0 + 1 < 2 * (normalize w).toNat * (normalize h).toNat := by
    have h1 := (wallCount_setCell hm0).2 (by
      rw [cellAt_replicate, if_pos (by omega)])
    rw [wallCount_replicate] at h1
    have : 2 * (normalize w).toNat * (normalize h).toNat
        = 2 * ((normalize w).toNat * (normalize h).toNat) := Nat.mul_assoc _ _ _
    omega
  obtain ⟨s1, hs1, hinv1, hst1⟩ :=
    carveLoop_spec rng (2 * (normalize w).toNat * (normalize h).toNat) _ hinit
      (by simpa using hcount)
  refine ⟨m0, s1, hm0, hs1, ?_, hinv1, hst1⟩
  unfold generateMaze
  simp only
  rw [if_neg (by omega), hm0]
  simp only
  rw [hs1]

/-- For normalised dimensions of at least 3, the level grid is the generated maze with the
cell `(W - 1, H - 2)` carved. -/
theorem levelGrid_run (w h : Int) (rng : Nat → Nat) (hW : 3 ≤ normalize w)
    (hH : 3 ≤ normalize h) :
    ∃ s maze, generateMaze w h rng = .ok s.maze ∧ CarveInv (normalize w) (normalize h) s ∧
      s.stack = [] ∧ levelGrid w h rng = .ok maze ∧
      setCell s.maze (normalize w - 1) (normalize h - 2) ' ' = some maze ∧
      (width maze : Int) = normalize w ∧ (height maze : Int) = normalize h := by
  obtain ⟨-, s, -, -, hgen, hinv, hst⟩ := generateMaze_run w h rng hW hH
  obtain ⟨hwd, hht⟩ := width_height_of_rectangular hinv.rect (by omega)
  obtain ⟨maze, hmaze⟩ := setCell_total hinv.rect ' ' (x := normalize w - 1)
    (y := normalize h - 2) (by omega) (by omega) (by omega) (by omega)
  obtain ⟨hwd1, hht1⟩ := width_height_of_rectangular (setCell_rectangular hmaze hinv.rect)
    (by omega)
  have hwi : (width s.maze : Int) = normalize w := by rw [hwd]; omega
  have hhi : (height s.maze : Int) = normalize h := by rw [hht]; omega
  refine ⟨s, maze, hgen, hinv, hst, ?_, hmaze, by rw [hwd1]; omega, by rw [hht1]; omega⟩
  unfold levelGrid
  rw [hgen]
  simp only
  unfold carveExit
  cases hm : s.maze with
  | nil =>
    rw [hm] at hht
    simp [height] at hht
    omega
  | cons row rest =>
    simp only
    rw [← hm, hwi, hhi, hmaze]

theorem column_passages {maze : Grid} (hcol : ∀ x y, isPassage maze x y → x = 1 ∧ 1 ≤ y)
    {a c : Int × Int} (h : Reachable maze a c) (ha : a = (1, 1)) :
    ∀ y, 1 ≤ y → y ≤ c.2 → isPassage maze 1 y := by
  induction h with
  | refl hp =>
    intro y h1 h2
    subst ha
    have : y = 1 := by simp only at h2; omega
    subst this
    exact hp
  | @step b c hab hadj hc ih =>
    intro y h1 h2
    have hb := hcol _ _ hab.target
    have hcc := hcol _ _ hc
    unfold adjacent at hadj
    by_cases hy : y ≤ b.2
    · exact ih y h1 hy
    · have : y = c.2 := by omega
      rw [this, ← hcc.1]
      exact hc

theorem row_passages {maze : Grid} (hrow : ∀ x y, isPassage maze x y → y = 1 ∧ 1 ≤ x)
    {a c : Int × Int} (h : Reachable maze a c) (ha : a = (1, 1)) :
    ∀ x, 1 ≤ x → x ≤ c.1 → isPassage maze x 1 := by
  induction h with
  | refl hp =>
    intro x h1 h2
    subst ha
    have : x = 1 := by simp only at h2; omega
    subst this
    exact hp
  | @step b c hab hadj hc ih =>
    intro x h1 h2
    have hb := hrow _ _ hab.target
    have hcc := hrow _ _ hc
    unfold adjacent at hadj
    by_cases hx : x ≤ b.1
    · exact ih x h1 hx
    · have : x = c.1 := by omega
      rw [this, ← hcc.1]
      exact hc

/-- With a normalised dimension equal to 3 the carving fills the whole interior: it is a
single column or a single row of the odd lattice with the midpoints between its cells. -/
theorem interior_passages_of_thin {w h : Int} {s : DfsState} (hinv : CarveInv w h s)
    (hempty : s.stack = []) (hw : 3 ≤ w) (hh : 3 ≤ h) (hwo : w % 2 = 1) (hho : h % 2 = 1)
    (hthin : w < 5 ∨ h < 5) :
    ∀ x y, 1 ≤ x → x ≤ w - 2 → 1 ≤ y → y ≤ h - 2 → isPassage s.maze x y := by
  have hcorner : isPassage s.maze (w - 2) (h - 2) :=
    lattice_passage hinv hempty (w + h).toNat _ _ (by unfold latticeCell; omega) (by omega)
  have hreach := hinv.reach _ _ hcorner
  intro x y hx1 hx2 hy1 hy2
  rcases hthin with hw5 | hh5
  · have hx : x = 1 := by omega
    subst hx
    exact column_passages (fun a b hp => by have := hinv.interior a b hp; omega) hreach rfl
      y hy1 hy2
  · have hy : y = 1 := by omega
    subst hy
    exact row_passages (fun a b hp => by have := hinv.interior a b hp; omega) hreach rfl
      x hx1 hx2

theorem carveStep_congr (w h : Int) {rng1 rng2 : Nat → Nat} (s : DfsState) (x y : Int)
    (rest : List (Int × Int)) (hd : rng1 s.draws = rng2 s.draws) :
    carveStep w h rng1 s x y rest = carveStep w h rng2 s x y rest := by
  unfold carveStep
  rw [hd]

theorem carveStep_draws {w h : Int} {rng : Nat → Nat} {s s1 : DfsState} {x y : Int}
    {rest : List (Int × Int)} (hstep : carveStep w h rng s x y rest = .ok s1) :
    s.draws ≤ s1.draws ∧ s1.draws ≤ s.draws + 1 := by
  rcases carveStep_cases hstep with ⟨rfl, -⟩ | ⟨_, _, _, -, -, -, -, -, hd⟩
  · exact ⟨Nat.le_refl _, Nat.le_succ _⟩
  · omega

theorem carveLoop_congr (w h : Int) {rng1 rng2 : Nat → Nat} :
    ∀ (fuel : Nat) (s : DfsState),
      (∀ k, s.draws ≤ k → k < s.draws + fuel → rng1 k = rng2 k) →
      carveLoop w h rng1 fuel s = carveLoop w h rng2 fuel s := by
  intro fuel
  induction fuel with
  | zero => intro s _; rfl
  | succ fuel ih =>
    intro s hk
    cases hs : s.stack with
    | nil => simp only [carveLoop, hs]
    | cons top rest =>
      obtain ⟨x, y⟩ := top
      have hc := carveStep_congr w h s x y rest (hk s.draws (Nat.le_refl _) (by omega))
      simp only [carveLoop, hs]
      rw [← hc]
      cases hstep : carveStep w h rng1 s x y rest with
      | error e => rfl
      | ok s1 =>
        simp only
        obtain ⟨h1, h2⟩ := carveStep_draws hstep
        exact ih s1 (fun k hk1 hk2 => hk k (by omega) (by omega))

/-- C15, as the code behaves: `generateMaze` takes no seed, and two runs with the same
`(w, h) = (5, 5)` whose random draws differ return different grids. -/
theorem generateMaze_runs_differ :
    generateMaze 5 5 (fun _ => 0) =
        .ok [['#', '#', '#', '#', '#'],
             ['#', ' ', ' ', ' ', '#'],
             ['#', '#', '#', ' ', '#'],
             ['#', ' ', ' ', ' ', '#'],
             ['#', '#', '#', '#', '#']] ∧
      generateMaze 5 5 (fun _ => 1) =
        .ok [['#', '#', '#', '#', '#'],
             ['#', ' ', '#', ' ', '#'],
             ['#', ' ', '#', ' ', '#'],
             ['#', ' ', ' ', ' ', '#'],
             ['#', '#', '#', '#', '#']] ∧
      generateMaze 5 5 (fun _ => 0) ≠ generateMaze 5 5 (fun _ => 1) := by
  have h0 : generateMaze 5 5 (fun _ => 0) =
        .ok [['#', '#', '#', '#', '#'],
             ['#', ' ', ' ', ' ', '#'],
             ['#', '#', '#', ' ', '#'],
             ['#', ' ', ' ', ' ', '#'],
             ['#', '#', '#', '#', '#']] := by rfl
  have h1 : generateMaze 5 5 (fun _ => 1) =
        .ok [['#', '#', '#', '#', '#'],
             ['#', ' ', '#', ' ', '#'],
             ['#', ' ', '#', ' ', '#'],
             ['#', ' ', ' ', ' ', '#'],
             ['#', '#', '#', '#', '#']] := by rfl
  refine ⟨h0, h1, ?_⟩
  rw [h0, h1]
  intro h
  injection h with h
  exact absurd h (by decide)

/-- C15, amended: the grid returned by `generateMaze w h` depends on nothing but `w`, `h` and
the random draws: two runs with the same `(w, h)` whose first `2 * W * H` draws agree return
the same result, cell for cell. -/
theorem generateMaze_deterministic (w h : Int) (rng1 rng2 : Nat → Nat)
    (hdraws : ∀ k, k < 2 * (normalize w).toNat * (normalize h).toNat → rng1 k = rng2 k) :
    generateMaze w h rng1 = generateMaze w h rng2 := by
  unfold generateMaze
  simp only
  split
  · rfl
  · split
    · rfl
    · rw [carveLoop_congr (normalize w) (normalize h) _ _
        (fun k _ hk => hdraws k (by simpa using hk))]

/-- C15, amended, at `w = h = 5`: a stream of zeros and a stream that leaves zero only after
the 50 draws the run can make give the same grid. -/
theorem generateMaze_deterministic_witness :
    (∀ k, k < 2 * (normalize 5).toNat * (normalize 5).toNat →
        (fun _ => 0 : Nat → Nat) k = (fun j => if j < 50 then 0 else 1 : Nat → Nat) k) ∧
      generateMaze 5 5 (fun _ => 0) = generateMaze 5 5 (fun j => if j < 50 then 0 else 1) :=
  ⟨fun k hk => by
      have h50 : 2 * (normalize 5).toNat * (normalize 5).toNat = 50 := by decide
      rw [h50] at hk
      simp [hk],
    generateMaze_deterministic 5 5 (fun _ => 0) (fun j => if j < 50 then 0 else 1)
      (fun k hk => by
        have h50 : 2 * (normalize 5).toNat * (normalize 5).toNat = 50 := by decide
        rw [h50] at hk
        simp [hk])⟩

/-! ## Bounds of the grid accesses -/

theorem loopState_inv {w h : Int} {rng : Nat → Nat} (hw : 3 ≤ w) (hh : 3 ≤ h) {s : DfsState}
    (hs : LoopState w h rng s) : CarveInv w h s := by
  induction hs with
  | init hm0 => exact carveInv_init hw hh hm0
  | next _ hstack hstep ih => exact carveStep_inv ih hstack hstep

theorem latticeWalls_subset {m1 m2 : Grid} (w h : Int)
    (hmono : ∀ x y, cellAt m2 x y = some '#' → cellAt m1 x y = some '#') :
    latticeWalls m2 w h ⊆ latticeWalls m1 w h := by
  intro ij hij
  unfold latticeWalls at hij ⊢
  rw [Finset.mem_filter] at hij ⊢
  exact ⟨hij.1, hmono _ _ hij.2⟩

theorem latticeWalls_card_lt {m1 m2 : Grid} {w h : Int}
    (hmono : ∀ x y, cellAt m2 x y = some '#' → cellAt m1 x y = some '#')
    {nx ny : Int} (hl : latticeCell w h nx ny) (h1 : cellAt m1 nx ny = some '#')
    (h2 : cellAt m2 nx ny ≠ some '#') :
    (latticeWalls m2 w h).card < (latticeWalls m1 w h).card := by
  unfold latticeCell at hl
  have hi : (2 * (((nx - 1) / 2).toNat : Int) + 1) = nx := by omega
  have hj : (2 * (((ny - 1) / 2).toNat : Int) + 1) = ny := by omega
  have hmem : (((nx - 1) / 2).toNat, ((ny - 1) / 2).toNat) ∈ latticeWalls m1 w h := by
    unfold latticeWalls
    rw [Finset.mem_filter, Finset.mem_product, Finset.mem_range, Finset.mem_range]
    refine ⟨⟨by omega, by omega⟩, ?_⟩
    simp only
    rw [hi, hj]
    exact h1
  have hnot : (((nx - 1) / 2).toNat, ((ny - 1) / 2).toNat) ∉ latticeWalls m2 w h := by
    unfold latticeWalls
    rw [Finset.mem_filter]
    rintro ⟨-, hc⟩
    simp only at hc
    rw [hi, hj] at hc
    exact h2 hc
  exact Finset.card_lt_card ⟨latticeWalls_subset w h hmono, fun hrev => hnot (hrev hmem)⟩

theorem carveStep_lattice_measure {w h : Int} {rng : Nat → Nat} {s s1 : DfsState} {x y : Int}
    {rest : List (Int × Int)} (hinv : CarveInv w h s) (hstack : s.stack = (x, y) :: rest)
    (hstep : carveStep w h rng s x y rest = .ok s1) :
    2 * (latticeWalls s1.maze w h).card + s1.stack.length <
      2 * (latticeWalls s.maze w h).card + s.stack.length := by
  have htop := hinv.stack_ok (x, y) (by rw [hstack]; exact List.mem_cons_self _ _)
  obtain ⟨⟨hxo, hyo, hx1, hx2, hy1, hy2⟩, htopP⟩ := htop
  simp only at hxo hyo hx1 hx2 hy1 hy2 htopP
  rcases carveStep_cases hstep with ⟨rfl, -⟩ | ⟨nx, ny, m1, hn, hwall, hm1, hm2, hst, -⟩
  · simp only [hstack, List.length_cons]
    omega
  · rw [mem_neighbors] at hn
    have hl : latticeCell w h nx ny := by unfold latticeCell; omega
    have hmono : ∀ a b, cellAt s1.maze a b = some '#' → cellAt s.maze a b = some '#' := by
      intro a b hc
      rw [cellAt_setCell hm2] at hc
      split at hc
      · exact absurd (Option.some.inj hc) (by decide)
      · rw [cellAt_setCell hm1] at hc
        split at hc
        · exact absurd (Option.some.inj hc) (by decide)
        · exact hc
    have hnew : cellAt s1.maze nx ny ≠ some '#' := by
      rw [cellAt_setCell hm2, if_pos ⟨rfl, rfl⟩]
      intro hc
      exact absurd (Option.some.inj hc) (by decide)
    have hlt := latticeWalls_card_lt hmono hl hwall hnew
    simp only [hst, hstack, List.length_cons]
    omega

theorem carveLoop_lattice {w h : Int} (rng : Nat → Nat) :
    ∀ (fuel : Nat) (s : DfsState), CarveInv w h s →
      2 * (latticeWalls s.maze w h).card + s.stack.length < fuel →
      ∃ s1, carveLoop w h rng fuel s = .ok s1 ∧ CarveInv w h s1 ∧ s1.stack = [] := by
  intro fuel
  induction fuel with
  | zero => intro s _ hlt; omega
  | succ fuel ih =>
    intro s hinv hlt
    cases hs : s.stack with
    | nil => exact ⟨s, by simp only [carveLoop, hs], hinv, hs⟩
    | cons top rest =>
      obtain ⟨x, y⟩ := top
      obtain ⟨s1, hs1⟩ := carveStep_total rng hinv hs
      have hinv1 := carveStep_inv hinv hs hs1
      have hm := carveStep_lattice_measure hinv hs hs1
      obtain ⟨s2, hs2, hinv2, hst2⟩ := ih s1 hinv1 (by omega)
      exact ⟨s2, by simp only [carveLoop, hs, hs1, hs2], hinv2, hst2⟩

theorem carveLoop_mono (w h : Int) (rng : Nat → Nat) :
    ∀ (fuel : Nat) (s s1 : DfsState), carveLoop w h rng fuel s = .ok s1 →
      ∀ fuel1, fuel ≤ fuel1 → carveLoop w h rng fuel1 s = .ok s1 := by
  intro fuel
  induction fuel with
  | zero => intro s s1 h; simp only [carveLoop] at h; cases h
  | succ fuel ih =>
    intro s s1 hrun fuel1 hle
    obtain ⟨f, rfl⟩ : ∃ f, fuel1 = f + 1 := ⟨fuel1 - 1, by omega⟩
    cases hs : s.stack with
    | nil =>
      simp only [carveLoop, hs] at hrun ⊢
      exact hrun
    | cons top rest =>
      obtain ⟨x, y⟩ := top
      simp only [carveLoop, hs] at hrun ⊢
      cases hstep : carveStep w h rng s x y rest with
      | error e => rw [hstep] at hrun; cases hrun
      | ok s2 =>
        rw [hstep] at hrun
        simp only at hrun ⊢
        exact ih s2 s1 hrun f (by omega)

theorem latticeWalls_init {w h : Int} (hw : 3 ≤ w) (hh : 3 ≤ h) {m0 : Grid}
    (hp : isPassage m0 1 1) :
    (latticeWalls m0 w h).card + 1 ≤ latticeSize w h := by
  have hsub : latticeWalls m0 w h ⊆
      ((Finset.range ((w - 1) / 2).toNat) ×ˢ (Finset.range ((h - 1) / 2).toNat)).erase (0, 0) := by
    intro ij hij
    unfold latticeWalls at hij
    rw [Finset.mem_filter] at hij
    rw [Finset.mem_erase]
    refine ⟨?_, hij.1⟩
    rintro rfl
    have := hij.2
    simp only [Nat.cast_zero, mul_zero, zero_add] at this
    unfold isPassage at hp
    rw [hp] at this
    exact absurd (Option.some.inj this) (by decide)
  have hmem : ((0, 0) : Nat × Nat) ∈
      (Finset.range ((w - 1) / 2).toNat) ×ˢ (Finset.range ((h - 1) / 2).toNat) := by
    rw [Finset.mem_product, Finset.mem_range, Finset.mem_range]
    exact ⟨by omega, by omega⟩
  have hcard := Finset.card_le_card hsub
  rw [Finset.card_erase_of_mem hmem, Finset.card_product, Finset.card_range,
    Finset.card_range] at hcard
  have hpos : 0 < ((w - 1) / 2).toNat * ((h - 1) / 2).toNat :=
    Nat.mul_pos (by omega) (by omega)
  unfold latticeSize
  omega

theorem turn_to (maze : Grid) (x y : Nat) (dir d : Direction) (m : String) :
    ∃ cmds q, runCommands maze { x := x, y := y, dir := dir } m cmds = .ok q ∧
      q.1 = { x := x, y := y, dir := d } := by
  cases dir <;> cases d
  all_goals first
    | (refine ⟨[], _, rfl, ?_⟩
       rfl)
    | (refine ⟨[Command.turnRight], _, rfl, ?_⟩
       simp [turnRight, Direction.code, Direction.cast]
       done)
    | (refine ⟨[Command.turnRight, Command.turnRight], _, rfl, ?_⟩
       simp [turnRight, Direction.code, Direction.cast]
       done)
    | (refine ⟨[Command.turnRight, Command.turnRight, Command.turnRight], _, rfl, ?_⟩
       simp [turnRight, Direction.code, Direction.cast])

theorem step_to {maze : Grid} (hrect : ∀ row ∈ maze, row.length = width maze) (p : Player)
    (m : String) (c : Int × Int) (hpos : isPassage maze p.x p.y)
    (hadj : adjacent ((p.x : Int), (p.y : Int)) c) (hc : isPassage maze c.1 c.2) :
    ∃ cmds q, runCommands maze p m cmds = .ok q ∧ (q.1.x : Int) = c.1 ∧ (q.1.y : Int) = c.2 := by
  obtain ⟨x, y, dir⟩ := p
  obtain ⟨cx, cy⟩ := c
  have hin : insideGrid maze (cx, cy) :=
    (cellAt_isSome_iff (W := width maze) (H := height maze) ⟨rfl, hrect⟩ cx cy).1 ⟨_, hc⟩
  have hpin : insideGrid maze ((x : Int), (y : Int)) :=
    (cellAt_isSome_iff (W := width maze) (H := height maze) ⟨rfl, hrect⟩ x y).1 ⟨_, hpos⟩
  unfold insideGrid at hpin
  simp only at hpin
  have key : ∀ d : Direction, stepTarget { x := x, y := y, dir := d } 1 = (cx, cy) →
      ∃ cmds q, runCommands maze { x := x, y := y, dir := dir } m cmds = .ok q ∧
        (q.1.x : Int) = cx ∧ (q.1.y : Int) = cy := by
    intro d htarget
    obtain ⟨cmds, ⟨q1, m1⟩, hrun, hq⟩ := turn_to maze x y dir d m
    simp only at hq
    subst hq
    refine ⟨cmds ++ [Command.moveForward], ?_⟩
    rw [runCommands_append maze cmds [Command.moveForward] _ m _ hrun]
    rcases moveForward_cases maze { x := x, y := y, dir := d }
        (targets_of_inside maze { x := x, y := y, dir := d } (by show x < width maze; omega)
          (by show y < height maze; omega)).1
      with ⟨hout, -⟩ | ⟨-, hnone, -⟩ | ⟨-, -, hres⟩ | ⟨-, ⟨ch, hch, hne⟩, -⟩
    · rw [htarget] at hout
      exact absurd hin hout
    · rw [htarget] at hnone
      unfold isPassage at hc
      rw [hc] at hnone
      cases hnone
    · rw [htarget] at hres
      have hrun2 : runCommands maze { x := x, y := y, dir := d } m1 [Command.moveForward] =
          .ok ({ x := cx.toNat, y := cy.toNat, dir := d },
            "You move forward. Facing " ++ directionName d ++ ".") := by
        simp only [runCommands, applyCommand, hres]
      exact ⟨_, hrun2, Int.toNat_of_nonneg hin.1, Int.toNat_of_nonneg hin.2.2.1⟩
    · rw [htarget] at hch
      unfold isPassage at hc
      rw [hc] at hch
      exact absurd (Option.some.inj hch).symm hne
  unfold adjacent at hadj
  simp only at hadj
  rcases hadj with ⟨h1, h2 | h2⟩ | ⟨h1, h2 | h2⟩
  · exact key Direction.NORTH (by
      simp only [stepTarget, forwardVector]; exact Prod.ext (by simp only; omega) (by simp only; omega))
  · exact key Direction.SOUTH (by
      simp only [stepTarget, forwardVector]; exact Prod.ext (by simp only; omega) (by simp only; omega))
  · exact key Direction.WEST (by
      simp only [stepTarget, forwardVector]; exact Prod.ext (by simp only; omega) (by simp only; omega))
  · exact key Direction.EAST (by
      simp only [stepTarget, forwardVector]; exact Prod.ext (by simp only; omega) (by simp only; omega))

/-- Every cell reachable from the player's cell can be walked to with turn and forward
commands. -/
theorem walk_to {maze : Grid} (hrect : ∀ row ∈ maze, row.length = width maze)
    {a c : Int × Int} (h : Reachable maze a c) :
    ∀ (p : Player) (m : String), ((p.x : Int), (p.y : Int)) = a →
      ∃ cmds q, runCommands maze p m cmds = .ok q ∧ (q.1.x : Int) = c.1 ∧ (q.1.y : Int) = c.2 := by
  induction h with
  | refl _ =>
    intro p m hp
    exact ⟨[], (p, m), rfl, by rw [← hp], by rw [← hp]⟩
  | @step b c hab hadj hc ih =>
    intro p m hp
    obtain ⟨cmds, q, hrun, hx, hy⟩ := ih p m hp
    have hadj1 : adjacent ((q.1.x : Int), (q.1.y : Int)) c := by
      rw [hx, hy]
      exact hadj
    have hpos : isPassage maze q.1.x q.1.y := by
      rw [hx, hy]
      exact hab.target
    obtain ⟨cmds1, q1, hrun1, hx1, hy1⟩ := step_to hrect q.1 q.2 c hpos hadj1 hc
    exact ⟨cmds ++ cmds1, q1, by rw [runCommands_append maze cmds cmds1 p m q hrun]; exact hrun1,
      hx1, hy1⟩

theorem turn_not_boundary (d : Direction) :
    ¬ isBoundaryMessage ("You turn left. Now facing " ++ directionName d ++ ".") ∧
      ¬ isBoundaryMessage ("You turn right. Now facing " ++ directionName d ++ ".") ∧
      ¬ isBoundaryMessage "Unknown command." := by
  refine ⟨?_, ?_, ?_⟩ <;> rintro ⟨e, h⟩ <;> cases d <;> cases e <;> revert h <;> decide

theorem move_not_boundary (d : Direction) :
    ¬ isBoundaryMessage ("You move forward. Facing " ++ directionName d ++ ".") ∧
      ¬ isBoundaryMessage ("You bump into a wall. Still facing " ++ directionName d ++ ".") ∧
      ¬ isBoundaryMessage ("You step backward. Facing " ++ directionName d ++ ".") ∧
      ¬ isBoundaryMessage
        ("You step back into a wall. Still facing " ++ directionName d ++ ".") := by
  refine ⟨?_, ?_, ?_, ?_⟩ <;> rintro ⟨e, h⟩ <;> cases d <;> cases e <;> revert h <;> decide

theorem targets_inside {maze : Grid} {W H : Int} (hwd : (width maze : Int) = W)
    (hht : (height maze : Int) = H) (p : Player) (hint : interiorCell W H p.x p.y) :
    insideGrid maze (stepTarget p 1) ∧ insideGrid maze (stepTarget p (-1)) := by
  obtain ⟨x, y, dir⟩ := p
  unfold interiorCell at hint
  simp only at hint
  unfold insideGrid
  rw [hwd, hht]
  cases dir <;> simp only [stepTarget, forwardVector] <;> omega

/-- One command applied to a player inside the border of a level grid: the bounds check of
the step functions does not fire, and the player stays on a passage. -/
theorem applyCommand_interior {maze : Grid} {W H : Int} (hwd : (width maze : Int) = W)
    (hht : (height maze : Int) = H) (hrect : ∀ row ∈ maze, row.length = width maze)
    {p : Player} (hok : playerOK maze p) (hint : interiorCell W H p.x p.y) (c : Command) :
    ∃ q, applyCommand maze p c = .ok q ∧ ¬ isBoundaryMessage q.2 ∧ playerOK maze q.1 := by
  obtain ⟨hf, hb⟩ := targets_inside hwd hht p hint
  obtain ⟨hft, hbt⟩ := targets_of_inside maze p hok.1 hok.2.1
  cases c with
  | turnLeft => exact ⟨_, rfl, (turn_not_boundary _).1, hok⟩
  | turnRight => exact ⟨_, rfl, (turn_not_boundary _).2.1, hok⟩
  | unknown => exact ⟨_, rfl, (turn_not_boundary Direction.NORTH).2.2, hok⟩
  | moveForward =>
    show ∃ q, moveForward maze p = .ok q ∧ ¬ isBoundaryMessage q.2 ∧ playerOK maze q.1
    rcases moveForward_cases maze p hft with ⟨hout, -⟩ | ⟨hin, hc, -⟩ | ⟨hin, hp, h⟩ | ⟨-, -, h⟩
    · exact absurd hf hout
    · obtain ⟨ch, hch⟩ := cellAt_of_inside hrect hin
      rw [hch] at hc; cases hc
    · exact ⟨_, h, (move_not_boundary _).1, playerOK_target p.dir hin hp⟩
    · exact ⟨_, h, (move_not_boundary _).2.1, hok⟩
  | moveBackward =>
    show ∃ q, moveBackward maze p = .ok q ∧ ¬ isBoundaryMessage q.2 ∧ playerOK maze q.1
    rcases moveBackward_cases maze p hbt with ⟨hout, -⟩ | ⟨hin, hc, -⟩ | ⟨hin, hp, h⟩ | ⟨-, -, h⟩
    · exact absurd hb hout
    · obtain ⟨ch, hch⟩ := cellAt_of_inside hrect hin
      rw [hch] at hc; cases hc
    · exact ⟨_, h, (move_not_boundary _).2.2.1, playerOK_target p.dir hin hp⟩
    · exact ⟨_, h, (move_not_boundary _).2.2.2, hok⟩

theorem not_reachable_of_closed {V : Type} {G : SimpleGraph V} (S : Set V)
    (hS : ∀ a b, a ∈ S → G.Adj a b → b ∈ S) {a b : V} (ha : a ∈ S) (hb : b ∉ S) :
    ¬ G.Reachable a b := by
  rintro ⟨p⟩
  induction p with
  | nil => exact hb ha
  | cons hadj _ ih => exact ih (hS _ _ ha hadj) hb

theorem reachable_retract {V : Type} {G1 G : SimpleGraph V} (f : V → V)
    (hstep : ∀ a b, G1.Adj a b → G.Reachable (f a) (f b)) {a b : V}
    (h : G1.Reachable a b) : G.Reachable (f a) (f b) := by
  obtain ⟨p⟩ := h
  induction p with
  | nil => exact SimpleGraph.Reachable.refl _
  | cons hadj _ ih => exact (hstep _ _ hadj).trans ih

/-- Hanging a path `top — mid — n` with two new vertices on an acyclic graph leaves it
acyclic. -/
theorem acyclic_extend {V : Type} [DecidableEq V] {G G1 : SimpleGraph V} (hG : G.IsAcyclic)
    (top mid n : V)
    (hnew : ∀ a b, G1.Adj a b → G.Adj a b ∨ (a = top ∧ b = mid) ∨ (a = mid ∧ b = top) ∨
      (a = mid ∧ b = n) ∨ (a = n ∧ b = mid))
    (hmid : ∀ a, ¬ G.Adj mid a) (hn : ∀ a, ¬ G.Adj n a)
    (h1 : top ≠ mid) (h2 : top ≠ n) (h3 : mid ≠ n) : G1.IsAcyclic := by
  rw [SimpleGraph.isAcyclic_iff_forall_adj_isBridge] at hG ⊢
  have hmid1 : ∀ a, ¬ G.Adj a mid := fun a h => hmid a h.symm
  have hn1 : ∀ a, ¬ G.Adj a n := fun a h => hn a h.symm
  -- the new end `n` is cut off once the edge `mid — n` is removed
  have hcutN : ¬ (G1 \ SimpleGraph.fromEdgeSet {s(mid, n)}).Reachable n mid := by
    refine not_reachable_of_closed {n} ?_ rfl (fun h => h3 h)
    intro a b ha hab
    rw [Set.mem_singleton_iff] at ha
    subst ha
    rw [SimpleGraph.sdiff_adj, SimpleGraph.fromEdgeSet_adj] at hab
    obtain ⟨hadj, hnot⟩ := hab
    rcases hnew _ _ hadj with h | ⟨h, -⟩ | ⟨h, -⟩ | ⟨h, -⟩ | ⟨-, h⟩
    · exact absurd h (hn _)
    · exact absurd h.symm h2
    · exact absurd h.symm h3
    · exact absurd h.symm h3
    · subst h
      exact absurd ⟨by rw [Set.mem_singleton_iff]; exact Sym2.eq_swap, fun h => h3 h.symm⟩ hnot
  -- the new vertices are cut off once the edge `top — mid` is removed
  have hcutM : ¬ (G1 \ SimpleGraph.fromEdgeSet {s(top, mid)}).Reachable mid top := by
    refine not_reachable_of_closed {mid, n} ?_ (Or.inl rfl) ?_
    · intro a b ha hab
      rw [SimpleGraph.sdiff_adj, SimpleGraph.fromEdgeSet_adj] at hab
      obtain ⟨hadj, hnot⟩ := hab
      rcases ha with ha | ha
      · subst ha
        rcases hnew _ _ hadj with h | ⟨h, -⟩ | ⟨-, h⟩ | ⟨-, h⟩ | ⟨h, -⟩
        · exact absurd h (hmid _)
        · exact absurd h.symm h1
        · subst h
          exact absurd ⟨by rw [Set.mem_singleton_iff]; exact Sym2.eq_swap, fun h => h1 h.symm⟩
            hnot
        · exact Or.inr h
        · exact absurd h h3
      · rw [Set.mem_singleton_iff] at ha
        subst ha
        rcases hnew _ _ hadj with h | ⟨h, -⟩ | ⟨h, -⟩ | ⟨h, -⟩ | ⟨-, h⟩
        · exact absurd h (hn _)
        · exact absurd h.symm h2
        · exact absurd h.symm h3
        · exact absurd h.symm h3
        · exact Or.inl h
    · rintro (h | h)
      · exact h1 h
      · exact h2 h
  intro v w hvw
  rw [SimpleGraph.isBridge_iff]
  refine ⟨hvw, ?_⟩
  rcases hnew _ _ hvw with hold | ⟨rfl, rfl⟩ | ⟨rfl, rfl⟩ | ⟨rfl, rfl⟩ | ⟨rfl, rfl⟩
  · -- an old edge: walks of the new graph retract onto walks of the old one
    have hbridge := (SimpleGraph.isBridge_iff.1 (hG hold)).2
    have hv : v ≠ mid ∧ v ≠ n :=
      ⟨fun h => hmid w (h ▸ hold), fun h => hn w (h ▸ hold)⟩
    have hw : w ≠ mid ∧ w ≠ n :=
      ⟨fun h => hmid1 v (h ▸ hold), fun h => hn1 v (h ▸ hold)⟩
    intro hreach
    have hret := reachable_retract (G := G \ SimpleGraph.fromEdgeSet {s(v, w)})
      (fun a => if a = mid ∨ a = n then top else a) ?_ hreach
    · simp only [hv.1, hv.2, hw.1, hw.2, or_self, if_false] at hret
      exact hbridge hret
    · intro a b hab
      rw [SimpleGraph.sdiff_adj] at hab
      obtain ⟨hadj, hnot⟩ := hab
      rcases hnew _ _ hadj with h | ⟨rfl, rfl⟩ | ⟨rfl, rfl⟩ | ⟨rfl, rfl⟩ | ⟨rfl, rfl⟩
      · have ha : a ≠ mid ∧ a ≠ n := ⟨fun e => hmid b (e ▸ h), fun e => hn b (e ▸ h)⟩
        have hb : b ≠ mid ∧ b ≠ n := ⟨fun e => hmid1 a (e ▸ h), fun e => hn1 a (e ▸ h)⟩
        simp only [ha.1, ha.2, hb.1, hb.2, or_self, if_false]
        exact SimpleGraph.Adj.reachable ((SimpleGraph.sdiff_adj _ _ _ _).2 ⟨h, hnot⟩)
      all_goals simp only [h1, h2, h3, Ne.symm h3, true_or, or_true, or_self, if_true, if_false]
      all_goals exact SimpleGraph.Reachable.refl _
  · exact fun h => hcutM h.symm
  · rw [Sym2.eq_swap]
    exact hcutM
  · exact fun h => hcutN h.symm
  · rw [Sym2.eq_swap]
    exact hcutN

/-! ## Counting passages -/

theorem passageCount_set (maze : Grid) (i : Nat) (row row1 : List Char)
    (h : maze[i]? = some row) :
    passageCount (maze.set i row1) + row.count ' ' = passageCount maze + row1.count ' ' := by
  induction maze generalizing i with
  | nil => simp at h
  | cons r rs ih =>
    cases i with
    | zero =>
      simp only [List.getElem?_cons_zero, Option.some.injEq] at h
      subst h
      simp only [passageCount, List.set_cons_zero, List.map_cons, List.sum_cons]
      omega
    | succ i =>
      simp only [List.getElem?_cons_succ] at h
      have := ih i h
      simp only [passageCount, List.set_cons_succ, List.map_cons, List.sum_cons] at this ⊢
      omega

theorem count_passage_set (row : List Char) (i : Nat) (hi : i < row.length)
    (hw : row[i]? = some '#') : (row.set i ' ').count ' ' = row.count ' ' + 1 := by
  rw [List.count_set _ _ _ _ hi]
  have hget : row[i] = '#' := by
    have := List.getElem?_eq_getElem hi
    rw [this] at hw
    exact Option.some.inj hw
  have hne : (('#' : Char) == ' ') = false := by decide
  simp only [hget, hne, Bool.false_eq_true, if_false, beq_self_eq_true, if_true, Nat.sub_zero]

theorem passageCount_setCell {maze m : Grid} {x y : Int} (hset : setCell maze x y ' ' = some m)
    (hw : cellAt maze x y = some '#') : passageCount m = passageCount maze + 1 := by
  obtain ⟨hx, hy, row, hrow, hlen, rfl⟩ := (setCell_eq_some_iff _ _ _ _ _).1 hset
  have h1 := passageCount_set maze y.toNat row (row.set x.toNat ' ') hrow
  obtain ⟨-, -, row1, hrow1, hcell⟩ := (cellAt_eq_some_iff _ _ _ _).1 hw
  rw [hrow] at hrow1
  cases hrow1
  have h2 := count_passage_set row x.toNat hlen hcell
  omega

theorem passageCount_replicate (W H : Nat) :
    passageCount (List.replicate H (List.replicate W '#')) = 0 := by
  have hrow : (List.replicate W '#').count ' ' = 0 := by
    rw [List.count_eq_zero]
    intro hmem
    exact absurd (List.eq_of_mem_replicate hmem) (by decide)
  simp only [passageCount, List.map_replicate, hrow, List.sum_replicate, smul_eq_mul,
    Nat.mul_zero]

theorem latticeWalls_setCell_off {m m1 : Grid} {x y : Int} (w h : Int)
    (hset : setCell m x y ' ' = some m1) (hoff : ¬ (x % 2 = 1 ∧ y % 2 = 1)) :
    latticeWalls m1 w h = latticeWalls m w h := by
  unfold latticeWalls
  refine Finset.filter_congr ?_
  intro ij _
  rw [cellAt_setCell hset, if_neg (by omega)]

theorem latticeWalls_setCell_on {m m1 : Grid} {x y : Int} {w h : Int}
    (hset : setCell m x y ' ' = some m1) (hl : latticeCell w h x y)
    (hw : cellAt m x y = some '#') :
    (latticeWalls m1 w h).card + 1 = (latticeWalls m w h).card := by
  unfold latticeCell at hl
  have hi : (2 * (((x - 1) / 2).toNat : Int) + 1) = x := by omega
  have hj : (2 * (((y - 1) / 2).toNat : Int) + 1) = y := by omega
  have hmem : (((x - 1) / 2).toNat, ((y - 1) / 2).toNat) ∈ latticeWalls m w h := by
    unfold latticeWalls
    rw [Finset.mem_filter, Finset.mem_product, Finset.mem_range, Finset.mem_range]
    refine ⟨⟨by omega, by omega⟩, ?_⟩
    simp only
    rw [hi, hj]
    exact hw
  have heq : latticeWalls m1 w h =
      (latticeWalls m w h).erase (((x - 1) / 2).toNat, ((y - 1) / 2).toNat) := by
    ext ij
    obtain ⟨i, j⟩ := ij
    unfold latticeWalls
    rw [Finset.mem_erase, Finset.mem_filter, Finset.mem_filter]
    simp only [ne_eq, Prod.mk.injEq]
    rw [cellAt_setCell hset]
    by_cases hij : 2 * (i : Int) + 1 = x ∧ 2 * (j : Int) + 1 = y
    · rw [if_pos hij]
      constructor
      · rintro ⟨-, hc⟩
        exact absurd (Option.some.inj hc) (by decide)
      · rintro ⟨hne, -⟩
        exact absurd ⟨by omega, by omega⟩ hne
    · rw [if_neg hij]
      constructor
      · rintro ⟨h1, h2⟩
        exact ⟨fun hc => hij ⟨by have := hc.1; omega, by have := hc.2; omega⟩, h1, h2⟩
      · rintro ⟨-, h1, h2⟩
        exact ⟨h1, h2⟩
  rw [heq, Finset.card_erase_of_mem hmem]
  have := Finset.card_pos.2 ⟨_, hmem⟩
  omega

theorem latticeWalls_replicate {w h : Int} (hw : 3 ≤ w) (hh : 3 ≤ h) :
    (latticeWalls (List.replicate h.toNat (List.replicate w.toNat '#')) w h).card =
      latticeSize w h := by
  have heq : latticeWalls (List.replicate h.toNat (List.replicate w.toNat '#')) w h =
      (Finset.range ((w - 1) / 2).toNat) ×ˢ (Finset.range ((h - 1) / 2).toNat) := by
    unfold latticeWalls
    rw [Finset.filter_eq_self]
    intro ij hij
    rw [Finset.mem_product, Finset.mem_range, Finset.mem_range] at hij
    rw [cellAt_replicate, if_pos (by omega)]
  rw [heq, Finset.card_product, Finset.card_range, Finset.card_range]
  rfl

/-! ## The shape of the carved cells -/

theorem isPassage_congr {maze : Grid} {a b a1 b1 : Int} (ha : a = a1) (hb : b = b1)
    (h : isPassage maze a b) : isPassage maze a1 b1 := by
  subst ha hb
  exact h

/-- A passage next to a lattice cell lies between that cell and another one, so a lattice
cell that is not a passage has no passage next to it. -/
theorem no_passage_next_to_wall {maze : Grid}
    (hm : ∀ x y, isPassage maze x y →
      (x % 2 = 1 ∧ y % 2 = 1) ∨
      (x % 2 = 0 ∧ y % 2 = 1 ∧ isPassage maze (x - 1) y ∧ isPassage maze (x + 1) y) ∨
      (x % 2 = 1 ∧ y % 2 = 0 ∧ isPassage maze x (y - 1) ∧ isPassage maze x (y + 1)))
    {nx ny : Int} (hnx : nx % 2 = 1) (hny : ny % 2 = 1) (hnw : ¬ isPassage maze nx ny)
    {b : Int × Int} (hb : isPassage maze b.1 b.2) (hadj : adjacent b (nx, ny)) : False := by
  unfold adjacent at hadj
  simp only at hadj
  rcases hm b.1 b.2 hb with ⟨h1, h2⟩ | ⟨h1, h2, h3, h4⟩ | ⟨h1, h2, h3, h4⟩
  · omega
  · rcases (by omega : nx = b.1 - 1 ∨ nx = b.1 + 1) with e | e
    · exact hnw (isPassage_congr e.symm (by omega) h3)
    · exact hnw (isPassage_congr e.symm (by omega) h4)
  · rcases (by omega : ny = b.2 - 1 ∨ ny = b.2 + 1) with e | e
    · exact hnw (isPassage_congr (by omega) e.symm h3)
    · exact hnw (isPassage_congr (by omega) e.symm h4)

theorem treeInv_init {w h : Int} (hw : 3 ≤ w) (hh : 3 ≤ h) {m0 : Grid}
    (hset : setCell (List.replicate h.toNat (List.replicate w.toNat '#')) 1 1 ' ' = some m0) :
    TreeInv w h { maze := m0, stack := [(1, 1)], draws := 0 } := by
  have hpass : ∀ a b, isPassage m0 a b → a = 1 ∧ b = 1 := by
    intro a b hp
    rcases (isPassage_setCell hset a b).1 hp with h1 | h1
    · exact h1
    · unfold isPassage at h1
      rw [cellAt_replicate] at h1
      split at h1
      · exact absurd (Option.some.inj h1) (by decide)
      · cases h1
  have hwall : cellAt (List.replicate h.toNat (List.replicate w.toNat '#')) 1 1 = some '#' := by
    rw [cellAt_replicate, if_pos (by omega)]
  refine ⟨?_, ?_, ?_⟩
  · intro x y hp
    obtain ⟨rfl, rfl⟩ := hpass x y hp
    exact Or.inl ⟨by decide, by decide⟩
  · show passageCount m0 + 2 * (latticeWalls m0 w h).card + 1 = 2 * latticeSize w h
    have h1 := passageCount_setCell hset hwall
    rw [passageCount_replicate] at h1
    have h2 := latticeWalls_setCell_on (w := w) (h := h) hset
      (by unfold latticeCell; omega) hwall
    rw [latticeWalls_replicate hw hh] at h2
    omega
  · rw [SimpleGraph.isAcyclic_iff_forall_adj_isBridge]
    intro v u hvu
    exfalso
    obtain ⟨hv, hu, hadj⟩ := hvu
    have h1 := hpass _ _ hv
    have h2 := hpass _ _ hu
    unfold adjacent at hadj
    omega

theorem treeInv_step {w h : Int} {rng : Nat → Nat} {s s1 : DfsState} {x y : Int}
    {rest : List (Int × Int)} (hinv : CarveInv w h s) (htree : TreeInv w h s)
    (hstack : s.stack = (x, y) :: rest)
    (hstep : carveStep w h rng s x y rest = .ok s1) : TreeInv w h s1 := by
  have htop := hinv.stack_ok (x, y) (by rw [hstack]; exact List.mem_cons_self _ _)
  obtain ⟨⟨hxo, hyo, hx1, hx2, hy1, hy2⟩, htopP⟩ := htop
  simp only at hxo hyo hx1 hx2 hy1 hy2 htopP
  rcases carveStep_cases hstep with ⟨rfl, -⟩ | ⟨nx, ny, m1, hn, hwall, hm1, hm2, hst, -⟩
  · exact ⟨htree.mids, htree.count, htree.acyclic⟩
  · rw [mem_neighbors] at hn
    rcases hn with hn | hn | hn | hn
    all_goals
      have hmx : (x + nx).tdiv 2 = (x + nx) / 2 := Int.tdiv_eq_ediv (by omega) (by omega)
      have hmy : (y + ny).tdiv 2 = (y + ny) / 2 := Int.tdiv_eq_ediv (by omega) (by omega)
      rw [hmx, hmy] at hm1
      have hl : latticeCell w h nx ny := by unfold latticeCell; omega
      have hnw : ¬ isPassage s.maze nx ny := by
        unfold isPassage
        rw [hwall]
        intro hc
        exact absurd (Option.some.inj hc) (by decide)
      -- the midpoint is still a wall
      have hmw : ¬ isPassage s.maze ((x + nx) / 2) ((y + ny) / 2) := by
        intro hp
        rcases htree.mids _ _ hp with ⟨h1, h2⟩ | ⟨h1, h2, h3, h4⟩ | ⟨h1, h2, h3, h4⟩
        · omega
        · rcases (by omega : nx = (x + nx) / 2 - 1 ∨ nx = (x + nx) / 2 + 1) with e | e
          · exact hnw (isPassage_congr e.symm (by omega) h3)
          · exact hnw (isPassage_congr e.symm (by omega) h4)
        · rcases (by omega : ny = (y + ny) / 2 - 1 ∨ ny = (y + ny) / 2 + 1) with e | e
          · exact hnw (isPassage_congr (by omega) e.symm h3)
          · exact hnw (isPassage_congr (by omega) e.symm h4)
      have hmwall : cellAt s.maze ((x + nx) / 2) ((y + ny) / 2) = some '#' := by
        obtain ⟨c, hc⟩ := (cellAt_isSome_iff hinv.rect ((x + nx) / 2) ((y + ny) / 2)).2
          (by omega)
        rcases cellAt_wallOrPassage hinv.chars hc with h1 | h1
        · rw [h1] at hc; exact hc
        · rw [h1] at hc; exact absurd hc hmw
      have hwall1 : cellAt m1 nx ny = some '#' := by
        rw [cellAt_setCell hm1, if_neg (by omega)]
        exact hwall
      have hpass : ∀ a b, isPassage s1.maze a b ↔
          (a = nx ∧ b = ny) ∨ (a = (x + nx) / 2 ∧ b = (y + ny) / 2) ∨ isPassage s.maze a b := by
        intro a b
        rw [isPassage_setCell hm2, isPassage_setCell hm1]
      have hmono : ∀ a b, isPassage s.maze a b → isPassage s1.maze a b :=
        fun a b hp => (hpass a b).2 (Or.inr (Or.inr hp))
      have hnP : isPassage s1.maze nx ny := (hpass _ _).2 (Or.inl ⟨rfl, rfl⟩)
      have htopP1 : isPassage s1.maze x y := hmono _ _ htopP
      refine ⟨?_, ?_, ?_⟩
      · -- the shape of the passages
        intro a b hp
        rcases (hpass a b).1 hp with ⟨rfl, rfl⟩ | ⟨rfl, rfl⟩ | hp
        · exact Or.inl ⟨by omega, by omega⟩
        · by_cases hsame : ny = y
          · right; left
            refine ⟨by omega, by omega, ?_, ?_⟩
            · rcases (by omega : (x + nx) / 2 - 1 = x ∨ (x + nx) / 2 - 1 = nx) with e | e
              · exact isPassage_congr e.symm (by omega) htopP1
              · exact isPassage_congr e.symm (by omega) hnP
            · rcases (by omega : (x + nx) / 2 + 1 = x ∨ (x + nx) / 2 + 1 = nx) with e | e
              · exact isPassage_congr e.symm (by omega) htopP1
              · exact isPassage_congr e.symm (by omega) hnP
          · right; right
            refine ⟨by omega, by omega, ?_, ?_⟩
            · rcases (by omega : (y + ny) / 2 - 1 = y ∨ (y + ny) / 2 - 1 = ny) with e | e
              · exact isPassage_congr (by omega) e.symm htopP1
              · exact isPassage_congr (by omega) e.symm hnP
            · rcases (by omega : (y + ny) / 2 + 1 = y ∨ (y + ny) / 2 + 1 = ny) with e | e
              · exact isPassage_congr (by omega) e.symm htopP1
              · exact isPassage_congr (by omega) e.symm hnP
        · rcases htree.mids a b hp with h1 | ⟨h1, h2, h3, h4⟩ | ⟨h1, h2, h3, h4⟩
          · exact Or.inl h1
          · exact Or.inr (Or.inl ⟨h1, h2, hmono _ _ h3, hmono _ _ h4⟩)
          · exact Or.inr (Or.inr ⟨h1, h2, hmono _ _ h3, hmono _ _ h4⟩)
      · -- the count of the passages
        have c1 := passageCount_setCell hm1 hmwall
        have c2 := passageCount_setCell hm2 hwall1
        have c3 := latticeWalls_setCell_off w h hm1 (by omega)
        have c4 := latticeWalls_setCell_on hm2 hl hwall1
        have c5 := htree.count
        rw [c3] at c4
        omega
      · -- no cycle
        refine acyclic_extend htree.acyclic (x, y) ((x + nx) / 2, (y + ny) / 2) (nx, ny)
          ?_ ?_ ?_ ?_ ?_ ?_
        · rintro ⟨a1, a2⟩ ⟨b1, b2⟩ ⟨ha, hb, hab⟩
          simp only at ha hb
          have habs := hab
          unfold adjacent at habs
          simp only at habs
          rcases (hpass a1 a2).1 ha with ⟨rfl, rfl⟩ | ⟨rfl, rfl⟩ | ha
          · rcases (hpass b1 b2).1 hb with ⟨rfl, rfl⟩ | ⟨rfl, rfl⟩ | hb
            · omega
            · exact Or.inr (Or.inr (Or.inr (Or.inr ⟨rfl, rfl⟩)))
            · exact (no_passage_next_to_wall htree.mids (by omega) (by omega) hnw
                (b := (b1, b2)) hb (by unfold adjacent; simp only; omega)).elim
          · rcases (hpass b1 b2).1 hb with ⟨rfl, rfl⟩ | ⟨rfl, rfl⟩ | hb
            · exact Or.inr (Or.inr (Or.inr (Or.inl ⟨rfl, rfl⟩)))
            · omega
            · have hpar : b1 % 2 = 1 ∨ b2 % 2 = 1 := by
                rcases htree.mids b1 b2 hb with h1 | h1 | h1 <;> omega
              have hbn : ¬ (b1 = nx ∧ b2 = ny) := by
                rintro ⟨rfl, rfl⟩
                exact hnw hb
              have e1 : b1 = x := by omega
              have e2 : b2 = y := by omega
              subst e1 e2
              exact Or.inr (Or.inr (Or.inl ⟨rfl, rfl⟩))
          · rcases (hpass b1 b2).1 hb with ⟨rfl, rfl⟩ | ⟨rfl, rfl⟩ | hb
            · exact (no_passage_next_to_wall htree.mids (by omega) (by omega) hnw
                (b := (a1, a2)) ha hab).elim
            · have hpar : a1 % 2 = 1 ∨ a2 % 2 = 1 := by
                rcases htree.mids a1 a2 ha with h1 | h1 | h1 <;> omega
              have han : ¬ (a1 = nx ∧ a2 = ny) := by
                rintro ⟨rfl, rfl⟩
                exact hnw ha
              have e1 : a1 = x := by omega
              have e2 : a2 = y := by omega
              subst e1 e2
              exact Or.inr (Or.inl ⟨rfl, rfl⟩)
            · exact Or.inl ⟨ha, hb, hab⟩
        · rintro a ⟨hp, -, -⟩
          exact hmw hp
        · rintro a ⟨hp, -, -⟩
          exact hnw hp
        · intro e
          have e1 := congrArg Prod.fst e
          have e2 := congrArg Prod.snd e
          simp only at e1 e2
          omega
        · intro e
          have e1 := congrArg Prod.fst e
          have e2 := congrArg Prod.snd e
          simp only at e1 e2
          omega
        · intro e
          have e1 := congrArg Prod.fst e
          have e2 := congrArg Prod.snd e
          simp only at e1 e2
          omega

/-! ## The perfect maze -/

theorem carveLoop_loopState {w h : Int} {rng : Nat → Nat} :
    ∀ (fuel : Nat) (s s1 : DfsState), LoopState w h rng s →
      carveLoop w h rng fuel s = .ok s1 → LoopState w h rng s1 ∧ s1.stack = [] := by
  intro fuel
  induction fuel with
  | zero => intro s s1 _ h; simp only [carveLoop] at h; cases h
  | succ fuel ih =>
    intro s s1 hs hrun
    cases hst : s.stack with
    | nil =>
      simp only [carveLoop, hst] at hrun
      injection hrun with hrun
      subst hrun
      exact ⟨hs, hst⟩
    | cons top rest =>
      obtain ⟨x, y⟩ := top
      simp only [carveLoop, hst] at hrun
      cases hstep : carveStep w h rng s x y rest with
      | error e => rw [hstep] at hrun; cases hrun
      | ok s2 =>
        rw [hstep] at hrun
        simp only at hrun
        exact ih s2 s1 (LoopState.next hs hst hstep) hrun

theorem loopState_tree {w h : Int} {rng : Nat → Nat} (hw : 3 ≤ w) (hh : 3 ≤ h) {s : DfsState}
    (hs : LoopState w h rng s) : TreeInv w h s := by
  induction hs with
  | init hm0 => exact treeInv_init hw hh hm0
  | next hprev hstack hstep ih => exact treeInv_step (loopState_inv hw hh hprev) ih hstack hstep

theorem reachable_passageGraph {maze : Grid} {a b : Int × Int} (h : Reachable maze a b) :
    (passageGraph maze).Reachable a b := by
  induction h with
  | refl _ => exact SimpleGraph.Reachable.refl _
  | step hab hadj hc ih =>
    exact ih.trans (SimpleGraph.Adj.reachable ⟨hab.target, hc, hadj⟩)

theorem reachable_induce {maze : Grid} {a b : Int × Int} (h : Reachable maze a b) :
    ∀ (ha : a ∈ passageCells maze) (hb : b ∈ passageCells maze),
      ((passageGraph maze).induce (passageCells maze)).Reachable ⟨a, ha⟩ ⟨b, hb⟩ := by
  induction h with
  | refl _ => intro ha hb; exact SimpleGraph.Reachable.refl _
  | step hab hadj hc ih =>
    intro ha hb
    refine (ih ha hab.target).trans (SimpleGraph.Adj.reachable ?_)
    exact ⟨hab.target, hc, hadj⟩

theorem induce_acyclic {V : Type} {G : SimpleGraph V} (hG : G.IsAcyclic) (S : Set V) :
    (G.induce S).IsAcyclic := by
  intro v c hc
  have hinj : Function.Injective (SimpleGraph.Embedding.induce (G := G) S).toHom :=
    fun a b hab => Subtype.ext hab
  exact hG (c.map (SimpleGraph.Embedding.induce (G := G) S).toHom)
    ((SimpleGraph.Walk.map_isCycle_iff_of_injective hinj).2 hc)

end GridMaze
